import Mathlib

/-!
# Server browser ping cache

A shallow embedding of `src/engine/client/serverbrowser_ping_cache.cpp`
(`CServerBrowserPingCache`): the constructor, `Load`, `CachePing` and
`GetPingCache`, followed by theorems about them.

Conventions of the embedding.

* `std::vector<CEntry>` is a `List CEntry`; `push_back` appends at the end.
* The console (`IConsole::Print` with category `serverbrowse_ping_cache`) is the
  list of the messages printed so far by this class, oldest first.
* The sqlite3 library is outside the class.  The result codes of its calls are
  inputs of the operations; the `server_pings` table behind an open handle is an
  association list from `ip_address` to `ping` (the `utc_timestamp` column is
  never read back).
* `net_addr_comp`, `net_addr_from_str` and `net_addr_str` live in the base
  library and are parameters of the operations that call them.
* Vector sizes and the loop counters `To`, `From`, `i`, `j` are natural numbers:
  a vector of `2^31` entries does not fit the address space the counters index.
-/

namespace PingCache

/-! ## Data model -/

/-- Modelled from the spec: the `NETADDR` declaration of the base library is not
part of the sources at hand.  A host address is an address family, the bytes of
the host and the transport port; `CachePing` writes the `port` field. -/
structure NETADDR where
  type : Nat
  ip : List Nat
  port : Nat
deriving DecidableEq, Repr, Inhabited

/-- One cache entry, `IServerBrowserPingCache::CEntry{m_Addr, m_Ping}`. -/
structure CEntry where
  m_Addr : NETADDR
  m_Ping : Int
deriving DecidableEq, Repr, Inhabited

/-- Result code `SQLITE_OK` of sqlite3.h. -/
def SQLITE_OK : Int := 0

/-- Result code `SQLITE_ROW` of sqlite3.h. -/
def SQLITE_ROW : Int := 100

/-- Result code `SQLITE_DONE` of sqlite3.h. -/
def SQLITE_DONE : Int := 101

/-- Modelled from the spec: the macro `SQLITE_HANDLE_ERROR` of engine/sqlite.h is
not part of the sources at hand.  It yields the result code it is given; whatever
it reports goes to another console category and is not recorded here. -/
def SQLITE_HANDLE_ERROR (x : Int) : Int := x

/-- The `server_pings` table: `ip_address` (primary key) and `ping`. -/
abbrev Table := List (String × Int)

/-- The statement `INSERT OR REPLACE INTO server_pings (ip_address, ping, ...)`:
the row with this primary key, if any, is replaced. -/
def insertOrReplace (t : Table) (ip_address : String) (ping : Int) : Table :=
  t.filter (fun r => r.1 != ip_address) ++ [(ip_address, ping)]

/-- The member variables of `CServerBrowserPingCache`.  `m_pDisk` is `none` for a
null handle and otherwise holds the table behind the handle; the two statements
are `true` when they were prepared and `false` when they are null. -/
structure CServerBrowserPingCache where
  m_pConsole : List String
  m_pDisk : Option Table
  m_pLoadStmt : Bool
  m_pStoreStmt : Bool
  m_vEntries : List CEntry
  m_vNewEntries : List CEntry
deriving DecidableEq, Repr

/-- `std::vector::resize(n)`: truncate to `n` elements, or pad with
value-initialised elements up to `n`. -/
def resize (v : List CEntry) (n : Nat) : List CEntry :=
  v.take n ++ List.replicate (n - v.length) default

/-- `str_format(aBuf, sizeof(aBuf), ...)`: the formatted text, cut to fit a buffer
of `size` bytes with its terminating zero. -/
def str_format (size : Nat) (text : String) : String :=
  String.mk (text.data.take (size - 1))

/-! ## Constructor -/

/-- The constructor.  `SqliteOpen` is the result of opening `ddnet-cache.sqlite3`
(`none` when it fails), `ExecResult` the result code of the `CREATE TABLE`
statement, and `LoadStmt`, `StoreStmt` tell whether each `SqlitePrepare` returned a
statement. -/
def CServerBrowserPingCache.ctor (SqliteOpen : Option Table) (ExecResult : Int)
    (LoadStmt StoreStmt : Bool) : CServerBrowserPingCache :=
  match SqliteOpen with
  | none =>
    { m_pConsole := ["failed to open ddnet-cache.sqlite3"]
      m_pDisk := none, m_pLoadStmt := false, m_pStoreStmt := false
      m_vEntries := [], m_vNewEntries := [] }
  | some disk =>
    if SQLITE_HANDLE_ERROR ExecResult ≠ 0 then
      { m_pConsole := ["failed to create server_pings table"]
        m_pDisk := none, m_pLoadStmt := false, m_pStoreStmt := false
        m_vEntries := [], m_vNewEntries := [] }
    else
      { m_pConsole := []
        m_pDisk := some disk, m_pLoadStmt := LoadStmt, m_pStoreStmt := StoreStmt
        m_vEntries := [], m_vNewEntries := [] }

/-! ## Load -/

/-- What one `sqlite3_step` on the load statement yields: the result code and,
for a row, the text of column 0 and the integer of column 1. -/
structure SqliteStep where
  StepResult : Int
  pIpAddress : String
  Ping : Int
deriving DecidableEq, Repr

/-- The local variables of `Load` that the `while` loop changes. -/
structure LoadVars where
  Error : Bool
  WarnedForBadAddress : Bool
  m_vNewEntries : List CEntry
  m_pConsole : List String
deriving DecidableEq, Repr

/-- The loop `while(!Error)` of `Load`, run against the results of the successive
`sqlite3_step` calls.  `net_addr_from_str` gives `none` where the C function
returns non-zero.  The result is `none` when the given results end before the loop
does: the loop would step the statement once more. -/
def LoadLoop (net_addr_from_str : String → Option NETADDR) :
    List SqliteStep → LoadVars → Option LoadVars
  | [], st => if st.Error then some st else none
  | r :: rest, st =>
    if st.Error then some st
    else
      let StepResult := SQLITE_HANDLE_ERROR r.StepResult
      if StepResult = SQLITE_DONE then some st
      else if StepResult = SQLITE_ROW then
        match net_addr_from_str r.pIpAddress with
        | none =>
          if !st.WarnedForBadAddress then
            LoadLoop net_addr_from_str rest
              { st with
                m_pConsole := st.m_pConsole ++
                  [str_format 64 ("invalid address: " ++ r.pIpAddress)]
                WarnedForBadAddress := true }
          else LoadLoop net_addr_from_str rest st
        | some Addr =>
          LoadLoop net_addr_from_str rest
            { st with m_vNewEntries := st.m_vNewEntries ++ [CEntry.mk Addr r.Ping] }
      else LoadLoop net_addr_from_str rest { st with Error := true }

/-- `CServerBrowserPingCache::Load`, given the results of the `sqlite3_step` calls
it makes. -/
def Load (net_addr_from_str : String → Option NETADDR)
    (self : CServerBrowserPingCache) (steps : List SqliteStep) :
    Option CServerBrowserPingCache :=
  match self.m_pDisk with
  | none => some self
  | some _ =>
    let PrevNewEntriesSize := self.m_vNewEntries.length
    let Error := false
    let Error := Error || !self.m_pLoadStmt
    match LoadLoop net_addr_from_str steps
        ⟨Error, false, self.m_vNewEntries, self.m_pConsole⟩ with
    | none => none
    | some st =>
      if st.Error then
        some { self with
          m_pConsole := st.m_pConsole ++ ["failed to load ping cache"]
          m_vNewEntries := resize st.m_vNewEntries PrevNewEntriesSize }
      else
        some { self with
          m_pConsole := st.m_pConsole
          m_vNewEntries := st.m_vNewEntries }

/-! ## CachePing -/

/-- The result codes of the sqlite3 calls one `CachePing` makes on the store
statement.  A call that the short-circuit `||` skips does not use its code. -/
structure StoreResults where
  reset : Int
  bind_text : Int
  bind_int : Int
  step : Int
deriving DecidableEq, Repr

/-- `CServerBrowserPingCache::CachePing`.  `net_addr_str` formats the address
without its port.  The row is written when the statement is stepped and reports
`SQLITE_DONE`. -/
def CachePing (net_addr_str : NETADDR → String)
    (self : CServerBrowserPingCache) (Addr : NETADDR) (Ping : Int)
    (sql : StoreResults) : CServerBrowserPingCache :=
  let Addr := { Addr with port := 0 }
  let self := { self with m_vNewEntries := self.m_vNewEntries ++ [CEntry.mk Addr Ping] }
  match self.m_pDisk with
  | none => self
  | some disk =>
    let aAddr := net_addr_str Addr
    let Error := false
    let Error := Error || !self.m_pStoreStmt
    let Error := Error || SQLITE_HANDLE_ERROR sql.reset != SQLITE_OK
    let Error := Error || SQLITE_HANDLE_ERROR sql.bind_text != SQLITE_OK
    let Error := Error || SQLITE_HANDLE_ERROR sql.bind_int != SQLITE_OK
    let Error := Error || SQLITE_HANDLE_ERROR sql.step != SQLITE_DONE
    if Error then
      { self with m_pConsole := self.m_pConsole ++ ["failed to store ping"] }
    else
      { self with m_pDisk := some (insertOrReplace disk aAddr Ping) }

/-! ## GetPingCache -/

/-- `CAddrComparer::operator()`. -/
def CAddrComparer (net_addr_comp : NETADDR → NETADDR → Int) (a b : CEntry) : Bool :=
  decide (net_addr_comp a.m_Addr b.m_Addr < 0)

/-- `std::stable_sort(first, last, comp)`: the sorted rearrangement that keeps
elements which `comp` does not order in their original relative order.  Each
element is inserted in front of the already sorted later elements, before the
first one that `comp` does not put ahead of it. -/
def stable_sort (comp : CEntry → CEntry → Bool) (v : List CEntry) : List CEntry :=
  v.insertionSort (fun a b => comp b a = false)

/-- The duplicate-removal loop `for(unsigned int From = 0; From < size(); From++)`,
as a function of the vector, `To` and `From`; the first argument bounds the number
of iterations.  It returns the vector and `To`. -/
def RemoveDuplicates (net_addr_comp : NETADDR → NETADDR → Int) :
    Nat → List CEntry → Nat → Nat → List CEntry × Nat
  | 0, v, To, _ => (v, To)
  | fuel + 1, v, To, From =>
    if From < v.length then
      let v := if To < From then v.set To (v.getD From default) else v
      let To :=
        if From + 1 ≥ v.length ∨
            net_addr_comp (v.getD From default).m_Addr (v.getD (From + 1) default).m_Addr ≠ 0
        then To + 1 else To
      RemoveDuplicates net_addr_comp fuel v To (From + 1)
    else (v, To)

/-- The loop `while(i < vOldEntries.size() && j < m_vNewEntries.size())`, as a
function of `i`, `j` and the vector being filled; the first argument bounds the
number of iterations. -/
def MergeLoop (net_addr_comp : NETADDR → NETADDR → Int) (vOldEntries vNewEntries : List CEntry) :
    Nat → Nat → Nat → List CEntry → Nat × Nat × List CEntry
  | 0, i, j, vEntries => (i, j, vEntries)
  | fuel + 1, i, j, vEntries =>
    if i < vOldEntries.length ∧ j < vNewEntries.length then
      let Cmp := net_addr_comp (vOldEntries.getD i default).m_Addr
        (vNewEntries.getD j default).m_Addr
      if Cmp ≠ 0 then
        if Cmp < 0 then
          MergeLoop net_addr_comp vOldEntries vNewEntries fuel (i + 1) j
            (vEntries ++ [vOldEntries.getD i default])
        else
          MergeLoop net_addr_comp vOldEntries vNewEntries fuel i (j + 1)
            (vEntries ++ [vNewEntries.getD j default])
      else
        MergeLoop net_addr_comp vOldEntries vNewEntries fuel (i + 1) j vEntries
    else (i, j, vEntries)

/-- The block of `GetPingCache` guarded by `!m_vNewEntries.empty()`: from the
canonical sequence and the pending buffer to the new canonical sequence.  Each loop
gets as many iterations as it can need (shown below to be enough). -/
def Flatten (net_addr_comp : NETADDR → NETADDR → Int)
    (m_vEntries m_vNewEntries : List CEntry) : List CEntry :=
  let vOldEntries := m_vEntries
  let m_vNewEntries := stable_sort (CAddrComparer net_addr_comp) m_vNewEntries
  let (m_vNewEntries, To) :=
    RemoveDuplicates net_addr_comp m_vNewEntries.length m_vNewEntries 0 0
  let m_vNewEntries := resize m_vNewEntries To
  let (i, j, m_vEntries) :=
    MergeLoop net_addr_comp vOldEntries m_vNewEntries
      (vOldEntries.length + m_vNewEntries.length) 0 0 []
  m_vEntries ++ vOldEntries.drop i ++ m_vNewEntries.drop j

/-- `CServerBrowserPingCache::GetPingCache`: the object afterwards, and the
outputs `*ppEntries` (the contents of `m_vEntries`) and `*pNumEntries`. -/
def GetPingCache (net_addr_comp : NETADDR → NETADDR → Int)
    (self : CServerBrowserPingCache) : CServerBrowserPingCache × List CEntry × Nat :=
  let self :=
    if !self.m_vNewEntries.isEmpty then
      { self with
        m_vEntries := Flatten net_addr_comp self.m_vEntries self.m_vNewEntries
        m_vNewEntries := [] }
    else self
  (self, self.m_vEntries, self.m_vEntries.length)

/-! ## Sequences of operations -/

/-- One call on the cache object, with the behaviour of the storage during the
call. -/
inductive Call where
  | Load (steps : List SqliteStep)
  | CachePing (Addr : NETADDR) (Ping : Int) (sql : StoreResults)
  | GetPingCache
deriving DecidableEq, Repr

/-- The states the object `init` can come to be in: `init` itself, and what
`Load`, `CachePing` and `GetPingCache` make of a state it can be in. -/
inductive Reachable (net_addr_comp : NETADDR → NETADDR → Int)
    (net_addr_from_str : String → Option NETADDR) (net_addr_str : NETADDR → String)
    (init : CServerBrowserPingCache) : CServerBrowserPingCache → Prop where
  | init : Reachable net_addr_comp net_addr_from_str net_addr_str init init
  | Load {self self1 : CServerBrowserPingCache} (steps : List SqliteStep) :
      Reachable net_addr_comp net_addr_from_str net_addr_str init self →
      Load net_addr_from_str self steps = some self1 →
      Reachable net_addr_comp net_addr_from_str net_addr_str init self1
  | CachePing {self : CServerBrowserPingCache} (Addr : NETADDR) (Ping : Int)
      (sql : StoreResults) :
      Reachable net_addr_comp net_addr_from_str net_addr_str init self →
      Reachable net_addr_comp net_addr_from_str net_addr_str init
        (CachePing net_addr_str self Addr Ping sql)
  | GetPingCache {self : CServerBrowserPingCache} :
      Reachable net_addr_comp net_addr_from_str net_addr_str init self →
      Reachable net_addr_comp net_addr_from_str net_addr_str init
        (GetPingCache net_addr_comp self).1

/-- Run a sequence of calls, oldest first.  The result is `none` when the step
results given to a `Load` end before its loop does. -/
def run (net_addr_comp : NETADDR → NETADDR → Int)
    (net_addr_from_str : String → Option NETADDR) (net_addr_str : NETADDR → String) :
    CServerBrowserPingCache → List Call → Option CServerBrowserPingCache
  | self, [] => some self
  | self, Call.Load steps :: calls =>
    match Load net_addr_from_str self steps with
    | none => none
    | some self1 => run net_addr_comp net_addr_from_str net_addr_str self1 calls
  | self, Call.CachePing Addr Ping sql :: calls =>
    run net_addr_comp net_addr_from_str net_addr_str
      (CachePing net_addr_str self Addr Ping sql) calls
  | self, Call.GetPingCache :: calls =>
    run net_addr_comp net_addr_from_str net_addr_str (GetPingCache net_addr_comp self).1 calls

/-- The call is not a `Load`. -/
def Call.notLoad : Call → Bool
  | Call.Load _ => false
  | _ => true

/-- What the `CachePing` calls of a sequence of calls observed, oldest first: the
address with its port set to zero, and the ping. -/
def observations : List Call → List CEntry
  | [] => []
  | Call.CachePing Addr Ping _ :: calls =>
    CEntry.mk { Addr with port := 0 } Ping :: observations calls
  | _ :: calls => observations calls

/-- The comparator is a total order on addresses, reported as a sign: it is zero
exactly on equal addresses, swapping the arguments swaps the sign, and "less" is
transitive. -/
structure TotalOrder (net_addr_comp : NETADDR → NETADDR → Int) : Prop where
  eq_iff : ∀ a b, net_addr_comp a b = 0 ↔ a = b
  swap : ∀ a b, net_addr_comp a b < 0 ↔ 0 < net_addr_comp b a
  trans : ∀ a b c, net_addr_comp a b < 0 → net_addr_comp b c < 0 → net_addr_comp a c < 0

/-- The fields of an address in the order of the declaration, as one list. -/
def addrKey (a : NETADDR) : List Nat :=
  a.type :: (a.ip ++ [a.port])

/-- Modelled from the spec: `net_addr_comp` of the base library is not part of the
sources at hand.  This is one comparator that is a total order, used to evaluate
the operations on concrete addresses: it orders by address family, then host
bytes, then port. -/
def net_addr_comp_lex (a b : NETADDR) : Int :=
  if addrKey a < addrKey b then -1 else if addrKey a = addrKey b then 0 else 1

/-- Strictly ascending under the comparator: every entry is less than every later
one. -/
def StrictAsc (net_addr_comp : NETADDR → NETADDR → Int) (l : List CEntry) : Prop :=
  l.Pairwise (fun x y => net_addr_comp x.m_Addr y.m_Addr < 0)

instance (net_addr_comp : NETADDR → NETADDR → Int) (l : List CEntry) :
    Decidable (StrictAsc net_addr_comp l) := by
  unfold StrictAsc; infer_instance

/-- Ascending under the comparator, equal addresses allowed: what `stable_sort`
establishes. -/
def Asc (net_addr_comp : NETADDR → NETADDR → Int) (l : List CEntry) : Prop :=
  l.Pairwise (fun x y => CAddrComparer net_addr_comp y x = false)

/-- The most recent observation for address `a` in a sequence read oldest first:
the last entry with that address. -/
def lastFor : List CEntry → NETADDR → Option CEntry
  | [], _ => none
  | x :: xs, a => (lastFor xs a).or (if x.m_Addr = a then some x else none)

/-- The last element of every maximal run of consecutive entries that compare
equal. -/
def lastOfRuns (net_addr_comp : NETADDR → NETADDR → Int) : List CEntry → List CEntry
  | [] => []
  | [x] => [x]
  | x :: y :: rest =>
    if net_addr_comp x.m_Addr y.m_Addr ≠ 0 then
      x :: lastOfRuns net_addr_comp (y :: rest)
    else lastOfRuns net_addr_comp (y :: rest)

/-- The merge that `MergeLoop` and the two loops after it compute, on the parts
of the two vectors not yet consumed. -/
def mergeLists (net_addr_comp : NETADDR → NETADDR → Int) :
    List CEntry → List CEntry → List CEntry
  | [], ns => ns
  | o :: os, [] => o :: os
  | o :: os, n :: ns =>
    if net_addr_comp o.m_Addr n.m_Addr ≠ 0 then
      if net_addr_comp o.m_Addr n.m_Addr < 0 then
        o :: mergeLists net_addr_comp os (n :: ns)
      else n :: mergeLists net_addr_comp (o :: os) ns
    else mergeLists net_addr_comp os (n :: ns)
termination_by os ns => os.length + ns.length


/-- The text of the first row of a `Load` whose address does not parse, if there
is one. -/
def firstBadAddress (net_addr_from_str : String → Option NETADDR) :
    List SqliteStep → Option String
  | [] => none
  | r :: rest =>
    match net_addr_from_str r.pIpAddress with
    | none => some r.pIpAddress
    | some _ => firstBadAddress net_addr_from_str rest

/-- The entries a `Load` reads from rows: one per row whose address parses, in the
order of the rows. -/
def parsedRows (net_addr_from_str : String → Option NETADDR) :
    List SqliteStep → List CEntry
  | [] => []
  | r :: rest =>
    match net_addr_from_str r.pIpAddress with
    | none => parsedRows net_addr_from_str rest
    | some Addr => CEntry.mk Addr r.Ping :: parsedRows net_addr_from_str rest

/-- The warning a `Load` prints for rows: one line for the first row whose address
does not parse, nothing when every address parses. -/
def badAddressWarning (net_addr_from_str : String → Option NETADDR)
    (rows : List SqliteStep) : List String :=
  match firstBadAddress net_addr_from_str rows with
  | some pIpAddress => [str_format 64 ("invalid address: " ++ pIpAddress)]
  | none => []

/-- The value of `Error` at the end of `CachePing` when the handle is open: the store
statement is null or one of the sqlite3 calls reports a failure. -/
def storeError (self : CServerBrowserPingCache) (sql : StoreResults) : Bool :=
  !self.m_pStoreStmt || sql.reset != SQLITE_OK || sql.bind_text != SQLITE_OK ||
    sql.bind_int != SQLITE_OK || sql.step != SQLITE_DONE

/-- The ping of the most recent observation for address `a`, zero when there is
none. -/
def mostRecentPing (obs : List CEntry) (a : NETADDR) : Int :=
  match lastFor obs a with
  | some e => e.m_Ping
  | none => 0

/-- Last-write-wins reference semantics, after the words of the specification: the
distinct addresses of the observations, sorted ascending by the comparator, each
paired with the ping of the most recent observation for it. -/
def lastWriteWins (net_addr_comp : NETADDR → NETADDR → Int) (obs : List CEntry) :
    List CEntry :=
  (((obs.map CEntry.m_Addr).dedup).insertionSort (fun a b => net_addr_comp a b ≤ 0)).map
    (fun a => CEntry.mk a (mostRecentPing obs a))

/-- A `net_addr_from_str` that knows two texts, to evaluate `Load` on concrete
rows. -/
def net_addr_from_str_two (text : String) : Option NETADDR :=
  if text = "1.2.3.4" then some ⟨1, [1, 2, 3, 4], 0⟩
  else if text = "5.6.7.8" then some ⟨1, [5, 6, 7, 8], 0⟩
  else none

/-- A `net_addr_str` that writes the host bytes separated by dots and no port, to
evaluate `CachePing` on concrete addresses. -/
def net_addr_str_dots (a : NETADDR) : String :=
  ".".intercalate (a.ip.map toString)

/-- The address 1.2.3.4 (IPv4, port zero). -/
def addr_1_2_3_4 : NETADDR := ⟨1, [1, 2, 3, 4], 0⟩

/-- The address 5.6.7.8 (IPv4, port zero). -/
def addr_5_6_7_8 : NETADDR := ⟨1, [5, 6, 7, 8], 0⟩

/-- The result codes of a write in which every sqlite3 call succeeds. -/
def sqlOk : StoreResults := ⟨SQLITE_OK, SQLITE_OK, SQLITE_OK, SQLITE_DONE⟩

/-- The object constructed when `ddnet-cache.sqlite3` cannot be opened. -/
def noDisk : CServerBrowserPingCache :=
  CServerBrowserPingCache.ctor none SQLITE_OK false false

/-- The step result is a row. -/
def isRow (r : SqliteStep) : Bool :=
  decide (r.StepResult = SQLITE_ROW)

/-- The rows one `Load` reads from the step results it is given: none without an
open handle or without a load statement, and otherwise the results up to the first
one that is not a row. -/
def rowsEncountered (self : CServerBrowserPingCache) (steps : List SqliteStep) :
    List SqliteStep :=
  if self.m_pDisk.isSome && self.m_pLoadStmt then steps.takeWhile isRow else []

/-- The console line is an "invalid address" warning: it starts with the 17
characters of `invalid address: `. -/
def isInvalidAddressWarning (line : String) : Bool :=
  decide (line.data.take 17 = "invalid address: ".data)

/-- The ping the `server_pings` table holds for a primary key, if it has a row for
it. -/
def tableLookup (t : Table) (ip_address : String) : Option Int :=
  (t.find? (fun r => r.1 == ip_address)).map Prod.snd

/-- The reference two-pointer merge, after the words of the specification: emit the
old entry and advance old when old is less than new; emit the new entry and advance
new when old is greater; when they are equal discard the old entry, emit the new one
and advance both; when one side is exhausted emit the rest of the other. -/
def referenceMerge (net_addr_comp : NETADDR → NETADDR → Int) :
    List CEntry → List CEntry → List CEntry
  | [], ns => ns
  | o :: os, [] => o :: os
  | o :: os, n :: ns =>
    if net_addr_comp o.m_Addr n.m_Addr < 0 then
      o :: referenceMerge net_addr_comp os (n :: ns)
    else if net_addr_comp o.m_Addr n.m_Addr > 0 then
      n :: referenceMerge net_addr_comp (o :: os) ns
    else n :: referenceMerge net_addr_comp os ns
termination_by os ns => os.length + ns.length

/-- A `net_addr_from_str` that also knows a text with a port, to evaluate `Load` on
a row that carries one. -/
def net_addr_from_str_port (text : String) : Option NETADDR :=
  if text = "1.2.3.4:7000" then some ⟨1, [1, 2, 3, 4], 7000⟩
  else net_addr_from_str_two text

/-- Two objects agree on everything but how their observations are divided between
the canonical sequence and the pending buffer: console, handle and statements are
equal, and for every address the most recent observation is the same. -/
def Agree (s1 s2 : CServerBrowserPingCache) : Prop :=
  s1.m_pConsole = s2.m_pConsole ∧ s1.m_pDisk = s2.m_pDisk ∧
  s1.m_pLoadStmt = s2.m_pLoadStmt ∧ s1.m_pStoreStmt = s2.m_pStoreStmt ∧
  ∀ a, lastFor (s1.m_vEntries ++ s1.m_vNewEntries) a =
    lastFor (s2.m_vEntries ++ s2.m_vNewEntries) a

/-! ## The comparator -/

theorem TotalOrder.refl {cmp : NETADDR → NETADDR → Int} (h : TotalOrder cmp) (a : NETADDR) :
    cmp a a = 0 := (h.eq_iff a a).2 rfl

theorem TotalOrder.ne_of_lt {cmp : NETADDR → NETADDR → Int} (h : TotalOrder cmp)
    {a b : NETADDR} (hab : cmp a b < 0) : a ≠ b := by
  intro e
  have := (h.eq_iff a b).2 e
  omega

theorem TotalOrder.not_lt_of_lt {cmp : NETADDR → NETADDR → Int} (h : TotalOrder cmp)
    {a b : NETADDR} (hab : cmp a b < 0) : ¬ cmp b a < 0 := by
  have := (h.swap a b).1 hab
  omega

/-- Not greater and not equal means less. -/
theorem TotalOrder.lt_of_not_gt {cmp : NETADDR → NETADDR → Int} (h : TotalOrder cmp)
    {a b : NETADDR} (h1 : ¬ cmp b a < 0) (h2 : a ≠ b) : cmp a b < 0 := by
  have h3 : cmp a b ≠ 0 := fun e => h2 ((h.eq_iff a b).1 e)
  rcases lt_trichotomy (cmp a b) 0 with h4 | h4 | h4
  · exact h4
  · exact absurd h4 h3
  · exact absurd ((h.swap b a).2 h4) h1

theorem TotalOrder.lt_of_lt_of_not_gt {cmp : NETADDR → NETADDR → Int} (h : TotalOrder cmp)
    {a b c : NETADDR} (h1 : cmp a b < 0) (h2 : ¬ cmp c b < 0) : cmp a c < 0 := by
  by_cases e : b = c
  · subst e; exact h1
  · exact h.trans a b c h1 (h.lt_of_not_gt h2 e)

theorem TotalOrder.not_gt_trans {cmp : NETADDR → NETADDR → Int} (h : TotalOrder cmp)
    {a b c : NETADDR} (h1 : ¬ cmp b a < 0) (h2 : ¬ cmp c b < 0) : ¬ cmp c a < 0 := by
  by_cases e : a = b
  · subst e; exact h2
  · intro h3
    have h4 := h.lt_of_not_gt h1 e
    exact h.not_lt_of_lt (h.trans c a b h3 h4) (h.lt_of_not_gt h2 (by
      intro e2; subst e2; exact h.not_lt_of_lt h4 h3))

theorem addrKey_inj {a b : NETADDR} (e : addrKey a = addrKey b) : a = b := by
  cases a; cases b
  simp only [addrKey, List.cons.injEq] at e
  obtain ⟨e1, e2⟩ := e
  have e3 := List.append_inj' e2 rfl
  simp_all

theorem net_addr_comp_lex_lt (a b : NETADDR) :
    net_addr_comp_lex a b < 0 ↔ addrKey a < addrKey b := by
  unfold net_addr_comp_lex
  by_cases h1 : addrKey a < addrKey b
  · simp [h1]
  · by_cases h2 : addrKey a = addrKey b
    · simp [h2]
    · simp [h1, h2]

theorem net_addr_comp_lex_gt (a b : NETADDR) :
    0 < net_addr_comp_lex a b ↔ addrKey b < addrKey a := by
  unfold net_addr_comp_lex
  by_cases h1 : addrKey a < addrKey b
  · simp [h1]; exact le_of_lt h1
  · by_cases h2 : addrKey a = addrKey b
    · simp [h2]
    · simp [h1, h2]
      exact lt_of_le_of_ne (not_lt.1 h1) (Ne.symm h2)

theorem net_addr_comp_lex_eq (a b : NETADDR) :
    net_addr_comp_lex a b = 0 ↔ a = b := by
  constructor
  · intro h
    unfold net_addr_comp_lex at h
    by_cases h1 : addrKey a < addrKey b
    · simp [h1] at h
    · by_cases h2 : addrKey a = addrKey b
      · exact addrKey_inj h2
      · simp [h1, h2] at h
  · rintro rfl
    simp [net_addr_comp_lex]

theorem net_addr_comp_lex_total : TotalOrder net_addr_comp_lex where
  eq_iff := net_addr_comp_lex_eq
  swap a b := by rw [net_addr_comp_lex_lt, net_addr_comp_lex_gt]
  trans a b c := by
    simp only [net_addr_comp_lex_lt]
    exact fun h1 h2 => lt_trans h1 h2


/-! ## The most recent observation for an address -/

theorem lastFor_append (xs ys : List CEntry) (a : NETADDR) :
    lastFor (xs ++ ys) a = (lastFor ys a).or (lastFor xs a) := by
  induction xs with
  | nil => simp [lastFor]
  | cons x xs ih => simp [lastFor, ih, Option.or_assoc]

theorem lastFor_eq_none {l : List CEntry} {a : NETADDR} :
    lastFor l a = none ↔ ∀ e ∈ l, e.m_Addr ≠ a := by
  induction l with
  | nil => simp [lastFor]
  | cons x xs ih =>
    simp only [lastFor, Option.or_eq_none, ih, List.mem_cons, forall_eq_or_imp]
    constructor
    · rintro ⟨h1, h2⟩
      refine ⟨?_, h1⟩
      intro e; simp [e] at h2
    · rintro ⟨h1, h2⟩
      exact ⟨h2, by simp [h1]⟩

theorem lastFor_some {l : List CEntry} {a : NETADDR} {e : CEntry}
    (h : lastFor l a = some e) : e ∈ l ∧ e.m_Addr = a := by
  induction l with
  | nil => simp [lastFor] at h
  | cons x xs ih =>
    simp only [lastFor] at h
    cases hx : lastFor xs a with
    | some e1 =>
      rw [hx, Option.or_some] at h
      cases h
      exact ⟨List.mem_cons_of_mem _ (ih hx).1, (ih hx).2⟩
    | none =>
      rw [hx, Option.none_or] at h
      by_cases e1 : x.m_Addr = a
      · simp [e1] at h
        subst h
        exact ⟨List.mem_cons_self _ _, e1⟩
      · simp [e1] at h

theorem lastFor_isSome_of_mem {l : List CEntry} {e : CEntry} (h : e ∈ l) :
    ∃ e1, lastFor l e.m_Addr = some e1 := by
  cases hx : lastFor l e.m_Addr with
  | some e1 => exact ⟨e1, rfl⟩
  | none => exact absurd rfl (lastFor_eq_none.1 hx e h)

/-! ## Strictly ascending sequences -/

theorem StrictAsc.lastFor_cons {cmp : NETADDR → NETADDR → Int} (hc : TotalOrder cmp)
    {x : CEntry} {xs : List CEntry} (h : StrictAsc cmp (x :: xs)) (a : NETADDR) :
    lastFor (x :: xs) a = if x.m_Addr = a then some x else lastFor xs a := by
  simp only [lastFor]
  by_cases e : x.m_Addr = a
  · have : lastFor xs a = none := by
      rw [lastFor_eq_none]
      intro y hy e2
      have := (List.pairwise_cons.1 h).1 y hy
      exact hc.ne_of_lt this (e.trans e2.symm)
    simp [e, this]
  · simp [e]

theorem StrictAsc.lastFor_of_mem {cmp : NETADDR → NETADDR → Int} (hc : TotalOrder cmp)
    {l : List CEntry} (h : StrictAsc cmp l) {e : CEntry} (he : e ∈ l) :
    lastFor l e.m_Addr = some e := by
  induction l with
  | nil => simp at he
  | cons x xs ih =>
    rw [StrictAsc.lastFor_cons hc h]
    rcases List.mem_cons.1 he with rfl | he1
    · simp
    · have hx := (List.pairwise_cons.1 h).1 e he1
      rw [if_neg (hc.ne_of_lt hx)]
      exact ih (List.pairwise_cons.1 h).2 he1

theorem StrictAsc.mem_iff {cmp : NETADDR → NETADDR → Int} (hc : TotalOrder cmp)
    {l : List CEntry} (h : StrictAsc cmp l) {e : CEntry} :
    e ∈ l ↔ lastFor l e.m_Addr = some e :=
  ⟨fun he => h.lastFor_of_mem hc he, fun he => (lastFor_some he).1⟩

theorem StrictAsc.nodup {cmp : NETADDR → NETADDR → Int} (hc : TotalOrder cmp)
    {l : List CEntry} (h : StrictAsc cmp l) : l.Nodup := by
  unfold StrictAsc at h
  exact h.imp (fun {a b} hab e => hc.ne_of_lt hab (congrArg CEntry.m_Addr e))

/-- A strictly ascending sequence is determined by the observation it holds for
each address. -/
theorem StrictAsc.ext {cmp : NETADDR → NETADDR → Int} (hc : TotalOrder cmp)
    {l1 l2 : List CEntry} (h1 : StrictAsc cmp l1) (h2 : StrictAsc cmp l2)
    (h : ∀ a, lastFor l1 a = lastFor l2 a) : l1 = l2 := by
  have hp : l1.Perm l2 := by
    rw [List.perm_ext_iff_of_nodup (h1.nodup hc) (h2.nodup hc)]
    intro e
    rw [h1.mem_iff hc, h2.mem_iff hc, h]
  haveI : IsAntisymm CEntry (fun x y => cmp x.m_Addr y.m_Addr < 0) :=
    ⟨fun a b hab hba => absurd hba (hc.not_lt_of_lt hab)⟩
  exact List.eq_of_perm_of_sorted hp h1 h2

/-- In a strictly ascending sequence the entries with a given address are the one
observation it holds for that address, if any. -/
theorem StrictAsc.filter_eq {cmp : NETADDR → NETADDR → Int} (hc : TotalOrder cmp)
    {l : List CEntry} (h : StrictAsc cmp l) (a : NETADDR) :
    l.filter (fun e => decide (e.m_Addr = a)) = (lastFor l a).toList := by
  induction l with
  | nil => simp [lastFor]
  | cons x xs ih =>
    rw [StrictAsc.lastFor_cons hc h]
    by_cases e : x.m_Addr = a
    · have hn : lastFor xs a = none := by
        rw [lastFor_eq_none]
        intro y hy e2
        exact hc.ne_of_lt ((List.pairwise_cons.1 h).1 y hy) (e.trans e2.symm)
      have := ih (List.pairwise_cons.1 h).2
      rw [hn] at this
      simp [e, this]
    · simp [e, ih (List.pairwise_cons.1 h).2]


/-! ## The stable sort -/

theorem CAddrComparer_eq_false {cmp : NETADDR → NETADDR → Int} {a b : CEntry} :
    CAddrComparer cmp a b = false ↔ ¬ cmp a.m_Addr b.m_Addr < 0 := by
  simp [CAddrComparer]

theorem stable_sort_asc {cmp : NETADDR → NETADDR → Int} (hc : TotalOrder cmp)
    (l : List CEntry) : Asc cmp (stable_sort (CAddrComparer cmp) l) := by
  haveI : IsTotal CEntry (fun a b => CAddrComparer cmp b a = false) :=
    ⟨fun a b => by
      simp only [CAddrComparer_eq_false]
      by_cases h : cmp b.m_Addr a.m_Addr < 0
      · exact Or.inr (hc.not_lt_of_lt h)
      · exact Or.inl h⟩
  haveI : IsTrans CEntry (fun a b => CAddrComparer cmp b a = false) :=
    ⟨fun a b c => by
      simp only [CAddrComparer_eq_false]
      exact fun h1 h2 => hc.not_gt_trans h1 h2⟩
  exact List.sorted_insertionSort (fun a b => CAddrComparer cmp b a = false) l

theorem stable_sort_perm (comp : CEntry → CEntry → Bool) (l : List CEntry) :
    (stable_sort comp l).Perm l :=
  List.perm_insertionSort _ l

theorem lastFor_orderedInsert {cmp : NETADDR → NETADDR → Int} (hc : TotalOrder cmp)
    (x : CEntry) (l : List CEntry) (a : NETADDR) :
    lastFor (l.orderedInsert (fun a b => CAddrComparer cmp b a = false) x) a =
      lastFor (x :: l) a := by
  induction l with
  | nil => rfl
  | cons y ys ih =>
    by_cases h : CAddrComparer cmp y x = false
    · rw [List.orderedInsert, if_pos h]
    · rw [List.orderedInsert, if_neg h]
      have hlt : cmp y.m_Addr x.m_Addr < 0 := by
        by_contra h2; exact h (CAddrComparer_eq_false.2 h2)
      have hne := hc.ne_of_lt hlt
      have e1 : lastFor (y :: List.orderedInsert (fun a b => CAddrComparer cmp b a = false) x ys) a
          = (lastFor (x :: ys) a).or (if y.m_Addr = a then some y else none) := by
        rw [← ih]; rfl
      rw [e1]
      simp only [lastFor, Option.or_assoc]
      congr 1
      by_cases e2 : x.m_Addr = a
      · have : ¬ y.m_Addr = a := fun e3 => hne (e3.trans e2.symm)
        simp [e2, this]
      · simp [e2]

/-- The stable sort keeps, for every address, the most recent observation. -/
theorem lastFor_stable_sort {cmp : NETADDR → NETADDR → Int} (hc : TotalOrder cmp)
    (l : List CEntry) (a : NETADDR) :
    lastFor (stable_sort (CAddrComparer cmp) l) a = lastFor l a := by
  induction l with
  | nil => rfl
  | cons x xs ih =>
    have : stable_sort (CAddrComparer cmp) (x :: xs) =
        (stable_sort (CAddrComparer cmp) xs).orderedInsert
          (fun a b => CAddrComparer cmp b a = false) x := rfl
    rw [this, lastFor_orderedInsert hc]
    simp only [lastFor, ih]

/-! ## Collapsing runs of equal addresses -/

theorem lastOfRuns_sublist (cmp : NETADDR → NETADDR → Int) (l : List CEntry) :
    (lastOfRuns cmp l).Sublist l := by
  induction l using lastOfRuns.induct cmp with
  | case1 => simp [lastOfRuns]
  | case2 x => simp [lastOfRuns]
  | case3 x y rest h ih =>
    rw [lastOfRuns, if_pos h]
    exact ih.cons₂ x
  | case4 x y rest h ih =>
    rw [lastOfRuns, if_neg h]
    exact ih.cons x

theorem lastFor_lastOfRuns {cmp : NETADDR → NETADDR → Int} (hc : TotalOrder cmp)
    (l : List CEntry) (a : NETADDR) : lastFor (lastOfRuns cmp l) a = lastFor l a := by
  induction l using lastOfRuns.induct cmp with
  | case1 => rfl
  | case2 x => rfl
  | case3 x y rest h ih =>
    rw [lastOfRuns, if_pos h]
    simp only [lastFor] at ih ⊢
    rw [ih]
  | case4 x y rest h ih =>
    rw [lastOfRuns, if_neg h, ih]
    have e : x.m_Addr = y.m_Addr := (hc.eq_iff _ _).1 (not_not.1 h)
    simp only [lastFor]
    by_cases e2 : x.m_Addr = a
    · have e3 : y.m_Addr = a := e ▸ e2
      simp only [e2, e3, if_true]
      cases lastFor rest a <;> simp
    · simp [e2]

theorem strictAsc_lastOfRuns {cmp : NETADDR → NETADDR → Int} (hc : TotalOrder cmp)
    {l : List CEntry} (h : Asc cmp l) : StrictAsc cmp (lastOfRuns cmp l) := by
  induction l using lastOfRuns.induct cmp with
  | case1 => simp [lastOfRuns, StrictAsc]
  | case2 x => simp [lastOfRuns, StrictAsc]
  | case3 x y rest hxy ih =>
    rw [lastOfRuns, if_pos hxy]
    have h' := List.pairwise_cons.1 h
    refine List.pairwise_cons.2 ⟨?_, ih h'.2⟩
    intro z hz
    have hz1 : z ∈ y :: rest := (lastOfRuns_sublist cmp _).subset hz
    have hxy1 : ¬ cmp y.m_Addr x.m_Addr < 0 :=
      CAddrComparer_eq_false.1 (h'.1 y (List.mem_cons_self _ _))
    have hlt : cmp x.m_Addr y.m_Addr < 0 :=
      hc.lt_of_not_gt hxy1 (fun e => hxy ((hc.eq_iff _ _).2 e))
    rcases List.mem_cons.1 hz1 with rfl | hz2
    · exact hlt
    · have := CAddrComparer_eq_false.1 ((List.pairwise_cons.1 h'.2).1 z hz2)
      exact hc.lt_of_lt_of_not_gt hlt this
  | case4 x y rest hxy ih =>
    rw [lastOfRuns, if_neg hxy]
    exact ih (List.pairwise_cons.1 h).2


/-! ## The merge -/

theorem mergeLists_nil_right (cmp : NETADDR → NETADDR → Int) (os : List CEntry) :
    mergeLists cmp os [] = os := by
  cases os <;> simp [mergeLists]

theorem mem_mergeLists {cmp : NETADDR → NETADDR → Int} {os ns : List CEntry} {e : CEntry}
    (h : e ∈ mergeLists cmp os ns) : e ∈ os ∨ e ∈ ns := by
  induction os, ns using mergeLists.induct cmp with
  | case1 ns => exact Or.inr (by simpa [mergeLists] using h)
  | case2 o os => exact Or.inl (by simpa [mergeLists] using h)
  | case3 o os n ns h1 h2 ih =>
    rw [mergeLists, if_pos h1, if_pos h2] at h
    rcases List.mem_cons.1 h with rfl | h3
    · exact Or.inl (List.mem_cons_self _ _)
    · rcases ih h3 with h4 | h4
      · exact Or.inl (List.mem_cons_of_mem _ h4)
      · exact Or.inr h4
  | case4 o os n ns h1 h2 ih =>
    rw [mergeLists, if_pos h1, if_neg h2] at h
    rcases List.mem_cons.1 h with rfl | h3
    · exact Or.inr (List.mem_cons_self _ _)
    · rcases ih h3 with h4 | h4
      · exact Or.inl h4
      · exact Or.inr (List.mem_cons_of_mem _ h4)
  | case5 o os n ns h1 ih =>
    rw [mergeLists, if_neg h1] at h
    rcases ih h with h4 | h4
    · exact Or.inl (List.mem_cons_of_mem _ h4)
    · exact Or.inr h4

theorem strictAsc_mergeLists {cmp : NETADDR → NETADDR → Int} (hc : TotalOrder cmp)
    {os ns : List CEntry} (ho : StrictAsc cmp os) (hn : StrictAsc cmp ns) :
    StrictAsc cmp (mergeLists cmp os ns) := by
  induction os, ns using mergeLists.induct cmp with
  | case1 ns => simpa [mergeLists] using hn
  | case2 o os => simpa [mergeLists] using ho
  | case3 o os n ns h1 h2 ih =>
    rw [mergeLists, if_pos h1, if_pos h2]
    have ho' := List.pairwise_cons.1 ho
    have hn' := List.pairwise_cons.1 hn
    refine List.pairwise_cons.2 ⟨?_, ih ho'.2 hn⟩
    intro z hz
    rcases mem_mergeLists hz with h3 | h3
    · exact ho'.1 z h3
    · rcases List.mem_cons.1 h3 with rfl | h4
      · exact h2
      · exact hc.trans _ _ _ h2 (hn'.1 z h4)
  | case4 o os n ns h1 h2 ih =>
    rw [mergeLists, if_pos h1, if_neg h2]
    have ho' := List.pairwise_cons.1 ho
    have hn' := List.pairwise_cons.1 hn
    have hlt : cmp n.m_Addr o.m_Addr < 0 := by
      have : 0 < cmp o.m_Addr n.m_Addr := by omega
      exact (hc.swap _ _).2 this
    refine List.pairwise_cons.2 ⟨?_, ih ho hn'.2⟩
    intro z hz
    rcases mem_mergeLists hz with h3 | h3
    · rcases List.mem_cons.1 h3 with rfl | h4
      · exact hlt
      · exact hc.trans _ _ _ hlt (ho'.1 z h4)
    · exact hn'.1 z h3
  | case5 o os n ns h1 ih =>
    rw [mergeLists, if_neg h1]
    exact ih (List.pairwise_cons.1 ho).2 hn

/-- The merge holds, for every address, the observation of the new sequence if
there is one and otherwise that of the old sequence. -/
theorem lastFor_mergeLists {cmp : NETADDR → NETADDR → Int} (hc : TotalOrder cmp)
    {os ns : List CEntry} (ho : StrictAsc cmp os) (a : NETADDR) :
    lastFor (mergeLists cmp os ns) a = (lastFor ns a).or (lastFor os a) := by
  induction os, ns using mergeLists.induct cmp with
  | case1 ns => simp [mergeLists, lastFor]
  | case2 o os => simp [mergeLists, lastFor]
  | case3 o os n ns h1 h2 ih =>
    rw [mergeLists, if_pos h1, if_pos h2]
    have ho' := List.pairwise_cons.1 ho
    rw [lastFor, ih ho'.2, Option.or_assoc]
    rfl
  | case4 o os n ns h1 h2 ih =>
    rw [mergeLists, if_pos h1, if_neg h2]
    have ho' := List.pairwise_cons.1 ho
    have hlt : cmp n.m_Addr o.m_Addr < 0 := by
      have : 0 < cmp o.m_Addr n.m_Addr := by omega
      exact (hc.swap _ _).2 this
    rw [lastFor, ih ho]
    conv_rhs => rw [lastFor]
    rw [Option.or_assoc, Option.or_assoc]
    congr 1
    by_cases e : n.m_Addr = a
    · have : lastFor (o :: os) a = none := by
        rw [lastFor_eq_none]
        intro y hy e2
        have hny : cmp n.m_Addr y.m_Addr < 0 := by
          rcases List.mem_cons.1 hy with rfl | hy1
          · exact hlt
          · exact hc.trans _ _ _ hlt (ho'.1 y hy1)
        exact hc.ne_of_lt hny (e.trans e2.symm)
      simp [e, this]
    · simp [e]
  | case5 o os n ns h1 ih =>
    rw [mergeLists, if_neg h1]
    have ho' := List.pairwise_cons.1 ho
    rw [ih ho'.2]
    have e : o.m_Addr = n.m_Addr := (hc.eq_iff _ _).1 (not_not.1 h1)
    have e0 : lastFor (o :: os) a =
        (lastFor os a).or (if o.m_Addr = a then some o else none) := rfl
    rw [e0]
    by_cases e2 : o.m_Addr = a
    · have e3 : n.m_Addr = a := e ▸ e2
      obtain ⟨e1, he1⟩ := lastFor_isSome_of_mem (l := n :: ns) (List.mem_cons_self n ns)
      rw [e3] at he1
      rw [he1]; simp
    · simp [e2]


/-! ## The duplicate-removal loop -/

theorem take_set_of_le (l : List CEntry) (a : CEntry) {n m : Nat} (h : n ≤ m) :
    (l.set m a).take n = l.take n := by
  apply List.ext_getElem?
  intro i
  by_cases hi : i < n
  · rw [List.getElem?_take_of_lt hi, List.getElem?_take_of_lt hi, List.getElem?_set]
    have : m ≠ i := by omega
    simp [this]
  · rw [List.getElem?_take_eq_none (by omega), List.getElem?_take_eq_none (by omega)]

theorem lastOfRuns_cons (cmp : NETADDR → NETADDR → Int) (x : CEntry) (tl : List CEntry) :
    lastOfRuns cmp (x :: tl) =
      (if tl.length = 0 ∨ cmp x.m_Addr (tl.getD 0 default).m_Addr ≠ 0 then [x] else []) ++
        lastOfRuns cmp tl := by
  cases tl with
  | nil => simp [lastOfRuns]
  | cons y rest =>
    by_cases h : cmp x.m_Addr y.m_Addr ≠ 0
    · rw [lastOfRuns, if_pos h]; simp [h]
    · rw [lastOfRuns, if_neg h]
      simp only [ne_eq, not_not] at h
      simp [h]

/-- The duplicate-removal loop, given enough iterations, leaves in the first `To`
places what it had put there before, followed by the last element of every run of
the part of the vector it had not read yet. -/
theorem RemoveDuplicates_spec (cmp : NETADDR → NETADDR → Int) :
    ∀ (fuel : Nat) (v : List CEntry) (To From : Nat),
      To ≤ From → From ≤ v.length → v.length - From ≤ fuel →
      (RemoveDuplicates cmp fuel v To From).1.length = v.length ∧
      (RemoveDuplicates cmp fuel v To From).2 ≤ To + (v.length - From) ∧
      (RemoveDuplicates cmp fuel v To From).1.take (RemoveDuplicates cmp fuel v To From).2 =
        v.take To ++ lastOfRuns cmp (v.drop From) := by
  intro fuel
  induction fuel with
  | zero =>
    intro v To From h1 h2 h3
    have : v.drop From = [] := List.drop_eq_nil_of_le (by omega)
    simp [RemoveDuplicates, this, lastOfRuns]
  | succ fuel ih =>
    intro v To From h1 h2 h3
    by_cases hF : From < v.length
    · obtain ⟨v1, hv1⟩ : ∃ v1, v1 = (if To < From then v.set To (v.getD From default) else v) :=
        ⟨_, rfl⟩
      have hlen : v1.length = v.length := by
        rw [hv1]; split_ifs <;> simp
      have htake : v1.take To = v.take To := by
        rw [hv1]; split_ifs
        · exact take_set_of_le _ _ (le_refl _)
        · rfl
      have hdrop : v1.drop (From + 1) = v.drop (From + 1) := by
        rw [hv1]; split_ifs with h
        · rw [List.drop_set, if_pos (by omega)]
        · rfl
      have hTo : v1[To]? = some v[From] := by
        rw [hv1]; split_ifs with h
        · rw [List.getElem?_set]
          simp [show To < v.length by omega, List.getElem?_eq_getElem hF]
        · have : To = From := by omega
          subst this
          exact List.getElem?_eq_getElem hF
      have hFrom : v1.getD From default = v[From] := by
        rw [hv1]; split_ifs with h
        · rw [List.getD_eq_getElem?_getD, List.getElem?_set]
          have : To ≠ From := by omega
          simp [this, List.getElem?_eq_getElem hF]
        · simp [List.getElem?_eq_getElem hF]
      have hFrom1 : v1.getD (From + 1) default = (v.drop (From + 1)).getD 0 default := by
        rw [← hdrop]
        simp [List.getElem?_drop]
      have hstep : RemoveDuplicates cmp (fuel + 1) v To From =
          RemoveDuplicates cmp fuel v1
            (if From + 1 ≥ v1.length ∨
                cmp (v1.getD From default).m_Addr (v1.getD (From + 1) default).m_Addr ≠ 0
              then To + 1 else To) (From + 1) := by
        rw [RemoveDuplicates, if_pos hF, hv1]
      rw [hstep]
      have hcond : (From + 1 ≥ v1.length ∨
          cmp (v1.getD From default).m_Addr (v1.getD (From + 1) default).m_Addr ≠ 0) ↔
          ((v.drop (From + 1)).length = 0 ∨
            cmp (v[From]).m_Addr ((v.drop (From + 1)).getD 0 default).m_Addr ≠ 0) := by
        rw [hFrom, hFrom1, hlen, List.length_drop]
        constructor
        · rintro (h | h)
          · exact Or.inl (by omega)
          · exact Or.inr h
        · rintro (h | h)
          · exact Or.inl (by omega)
          · exact Or.inr h
      rw [List.drop_eq_getElem_cons hF, lastOfRuns_cons]
      by_cases hc : (v.drop (From + 1)).length = 0 ∨
            cmp (v[From]).m_Addr ((v.drop (From + 1)).getD 0 default).m_Addr ≠ 0
      · rw [if_pos (hcond.2 hc), if_pos hc]
        obtain ⟨i1, i2, i3⟩ := ih v1 (To + 1) (From + 1) (by omega) (by omega) (by omega)
        refine ⟨by rw [i1, hlen], by rw [hlen] at i2; omega, ?_⟩
        rw [i3, List.take_succ, htake, hTo, hdrop]
        simp
      · rw [if_neg (fun h => hc (hcond.1 h)), if_neg hc]
        obtain ⟨i1, i2, i3⟩ := ih v1 To (From + 1) (by omega) (by omega) (by omega)
        refine ⟨by rw [i1, hlen], by rw [hlen] at i2; omega, ?_⟩
        rw [i3, htake, hdrop]
        simp
    · have : v.drop From = [] := List.drop_eq_nil_of_le (by omega)
      rw [RemoveDuplicates, if_neg hF]
      simp [this, lastOfRuns]

/-- After `stable_sort`, the duplicate-removal loop and `resize(To)` the pending
buffer holds the last element of every run of the sorted buffer. -/
theorem resize_RemoveDuplicates (cmp : NETADDR → NETADDR → Int) (v : List CEntry) :
    resize (RemoveDuplicates cmp v.length v 0 0).1 (RemoveDuplicates cmp v.length v 0 0).2 =
      lastOfRuns cmp v := by
  obtain ⟨h1, h2, h3⟩ := RemoveDuplicates_spec cmp v.length v 0 0 (le_refl _) (Nat.zero_le _)
    (by omega)
  unfold resize
  rw [h3, h1]
  have : (RemoveDuplicates cmp v.length v 0 0).2 - v.length = 0 := by omega
  simp [this]


/-! ## The merge loop -/

/-- The merge loop, given enough iterations, and the two loops after it append to
`m_vEntries` the merge of the parts of the two vectors not yet consumed. -/
theorem MergeLoop_spec (cmp : NETADDR → NETADDR → Int) (old new : List CEntry) :
    ∀ (fuel i j : Nat) (out : List CEntry),
      (old.length - i) + (new.length - j) ≤ fuel →
      (MergeLoop cmp old new fuel i j out).2.2 ++
          old.drop (MergeLoop cmp old new fuel i j out).1 ++
          new.drop (MergeLoop cmp old new fuel i j out).2.1 =
        out ++ mergeLists cmp (old.drop i) (new.drop j) := by
  intro fuel
  induction fuel with
  | zero =>
    intro i j out h
    have h1 : old.drop i = [] := List.drop_eq_nil_of_le (by omega)
    have h2 : new.drop j = [] := List.drop_eq_nil_of_le (by omega)
    simp [MergeLoop, h1, h2, mergeLists]
  | succ fuel ih =>
    intro i j out h
    by_cases hc : i < old.length ∧ j < new.length
    · obtain ⟨hi, hj⟩ := hc
      have ho : old.getD i default = old[i] := by simp [List.getElem?_eq_getElem hi]
      have hn : new.getD j default = new[j] := by simp [List.getElem?_eq_getElem hj]
      rw [MergeLoop, if_pos ⟨hi, hj⟩, ho, hn]
      simp only
      rw [List.drop_eq_getElem_cons hi, List.drop_eq_getElem_cons hj]
      by_cases h1 : cmp (old[i]).m_Addr (new[j]).m_Addr ≠ 0
      · by_cases h2 : cmp (old[i]).m_Addr (new[j]).m_Addr < 0
        · rw [if_pos h1, if_pos h2, mergeLists, if_pos h1, if_pos h2,
            ih (i + 1) j _ (by omega), ← List.drop_eq_getElem_cons hj]
          simp
        · rw [if_pos h1, if_neg h2, mergeLists, if_pos h1, if_neg h2,
            ih i (j + 1) _ (by omega), ← List.drop_eq_getElem_cons hi]
          simp
      · rw [if_neg h1, mergeLists, if_neg h1, ih (i + 1) j _ (by omega),
          ← List.drop_eq_getElem_cons hj]
    · rw [MergeLoop, if_neg hc]
      by_cases hi : i < old.length
      · have h2 : new.drop j = [] := List.drop_eq_nil_of_le (by omega)
        simp [h2, mergeLists_nil_right]
      · have h1 : old.drop i = [] := List.drop_eq_nil_of_le (by omega)
        simp [h1, mergeLists]

/-- The flatten of `GetPingCache` is: sort the pending buffer stably, keep the last
element of every run, and merge the result into the canonical sequence. -/
theorem Flatten_eq (cmp : NETADDR → NETADDR → Int) (E P : List CEntry) :
    Flatten cmp E P =
      mergeLists cmp E (lastOfRuns cmp (stable_sort (CAddrComparer cmp) P)) := by
  have h := MergeLoop_spec cmp E (lastOfRuns cmp (stable_sort (CAddrComparer cmp) P))
    (E.length + (lastOfRuns cmp (stable_sort (CAddrComparer cmp) P)).length) 0 0 []
    (by omega)
  simp only [List.drop_zero, List.nil_append] at h
  unfold Flatten
  simp only [resize_RemoveDuplicates]
  exact h

theorem strictAsc_Flatten {cmp : NETADDR → NETADDR → Int} (hc : TotalOrder cmp)
    {E : List CEntry} (hE : StrictAsc cmp E) (P : List CEntry) :
    StrictAsc cmp (Flatten cmp E P) := by
  rw [Flatten_eq]
  exact strictAsc_mergeLists hc hE (strictAsc_lastOfRuns hc (stable_sort_asc hc P))

/-- The flatten holds, for every address, the most recent observation among the
canonical sequence followed by the pending buffer. -/
theorem lastFor_Flatten {cmp : NETADDR → NETADDR → Int} (hc : TotalOrder cmp)
    {E : List CEntry} (hE : StrictAsc cmp E) (P : List CEntry) (a : NETADDR) :
    lastFor (Flatten cmp E P) a = lastFor (E ++ P) a := by
  rw [Flatten_eq, lastFor_mergeLists hc hE, lastFor_lastOfRuns hc, lastFor_stable_sort hc,
    lastFor_append]

theorem Flatten_nil {cmp : NETADDR → NETADDR → Int} (E : List CEntry) :
    Flatten cmp E [] = E := by
  rw [Flatten_eq]
  simp [stable_sort, lastOfRuns, mergeLists_nil_right]


/-! ## The operations on the object -/

theorem GetPingCache_fst (cmp : NETADDR → NETADDR → Int) (self : CServerBrowserPingCache) :
    (GetPingCache cmp self).1 =
      { self with
        m_vEntries := Flatten cmp self.m_vEntries self.m_vNewEntries
        m_vNewEntries := [] } := by
  unfold GetPingCache
  cases h : self.m_vNewEntries with
  | nil =>
    cases self
    simp only at h
    simp [h, Flatten_nil]
  | cons x xs => simp

theorem GetPingCache_snd (cmp : NETADDR → NETADDR → Int) (self : CServerBrowserPingCache) :
    (GetPingCache cmp self).2 =
      (Flatten cmp self.m_vEntries self.m_vNewEntries,
        (Flatten cmp self.m_vEntries self.m_vNewEntries).length) := by
  have h := GetPingCache_fst cmp self
  have h2 : (GetPingCache cmp self).2 =
      ((GetPingCache cmp self).1.m_vEntries, (GetPingCache cmp self).1.m_vEntries.length) := rfl
  rw [h2, h]

theorem CachePing_m_vNewEntries (fmt : NETADDR → String) (self : CServerBrowserPingCache)
    (Addr : NETADDR) (Ping : Int) (sql : StoreResults) :
    (CachePing fmt self Addr Ping sql).m_vNewEntries =
      self.m_vNewEntries ++ [CEntry.mk { Addr with port := 0 } Ping] := by
  unfold CachePing
  cases self.m_pDisk with
  | none => rfl
  | some disk => simp only; split_ifs <;> rfl

theorem CachePing_m_vEntries (fmt : NETADDR → String) (self : CServerBrowserPingCache)
    (Addr : NETADDR) (Ping : Int) (sql : StoreResults) :
    (CachePing fmt self Addr Ping sql).m_vEntries = self.m_vEntries := by
  unfold CachePing
  cases self.m_pDisk with
  | none => rfl
  | some disk => simp only; split_ifs <;> rfl

theorem CachePing_handles (fmt : NETADDR → String) (self : CServerBrowserPingCache)
    (Addr : NETADDR) (Ping : Int) (sql : StoreResults) :
    (CachePing fmt self Addr Ping sql).m_pDisk.isSome = self.m_pDisk.isSome ∧
    (CachePing fmt self Addr Ping sql).m_pLoadStmt = self.m_pLoadStmt ∧
    (CachePing fmt self Addr Ping sql).m_pStoreStmt = self.m_pStoreStmt := by
  unfold CachePing
  cases h : self.m_pDisk with
  | none => simp [h]
  | some disk => simp only; split_ifs <;> simp [h]

theorem Load_unchanged {parse : String → Option NETADDR} {self self1 : CServerBrowserPingCache}
    {steps : List SqliteStep} (h : Load parse self steps = some self1) :
    self1.m_vEntries = self.m_vEntries ∧ self1.m_pDisk = self.m_pDisk ∧
    self1.m_pLoadStmt = self.m_pLoadStmt ∧ self1.m_pStoreStmt = self.m_pStoreStmt := by
  unfold Load at h
  cases hd : self.m_pDisk with
  | none =>
    rw [hd] at h
    simp only [Option.some.injEq] at h
    subst h
    simp [hd]
  | some disk =>
    rw [hd] at h
    simp only at h
    cases hl : LoadLoop parse steps
        ⟨false || !self.m_pLoadStmt, false, self.m_vNewEntries, self.m_pConsole⟩ with
    | none => rw [hl] at h; simp at h
    | some st =>
      rw [hl] at h
      simp only at h
      split_ifs at h <;>
      · simp only [Option.some.injEq] at h
        subst h
        simp [hd]

/-- The canonical sequence stays strictly ascending whatever is called. -/
theorem Reachable.strictAsc {cmp : NETADDR → NETADDR → Int} (hc : TotalOrder cmp)
    {parse : String → Option NETADDR} {fmt : NETADDR → String}
    {init self : CServerBrowserPingCache} (h : Reachable cmp parse fmt init self)
    (h0 : StrictAsc cmp init.m_vEntries) : StrictAsc cmp self.m_vEntries := by
  induction h with
  | init => exact h0
  | Load steps _ hl ih => rw [(Load_unchanged hl).1]; exact ih
  | CachePing Addr Ping sql _ ih => rw [CachePing_m_vEntries]; exact ih
  | GetPingCache _ ih =>
    rw [GetPingCache_fst]
    exact strictAsc_Flatten hc ih _

/-- The handle and the two statements stay as the constructor left them. -/
theorem Reachable.handles {cmp : NETADDR → NETADDR → Int}
    {parse : String → Option NETADDR} {fmt : NETADDR → String}
    {init self : CServerBrowserPingCache} (h : Reachable cmp parse fmt init self) :
    self.m_pDisk.isSome = init.m_pDisk.isSome ∧ self.m_pLoadStmt = init.m_pLoadStmt ∧
      self.m_pStoreStmt = init.m_pStoreStmt := by
  induction h with
  | init => exact ⟨rfl, rfl, rfl⟩
  | Load steps _ hl ih =>
    obtain ⟨_, h2, h3, h4⟩ := Load_unchanged hl
    rw [h2, h3, h4]; exact ih
  | CachePing Addr Ping sql _ ih =>
    obtain ⟨h2, h3, h4⟩ := CachePing_handles fmt _ Addr Ping sql
    rw [h2, h3, h4]; exact ih
  | GetPingCache _ ih =>
    rw [GetPingCache_fst]; exact ih

theorem ctor_m_vEntries (o : Option Table) (e : Int) (l s : Bool) :
    (CServerBrowserPingCache.ctor o e l s).m_vEntries = [] ∧
      (CServerBrowserPingCache.ctor o e l s).m_vNewEntries = [] := by
  unfold CServerBrowserPingCache.ctor
  cases o with
  | none => simp
  | some d => simp only; split_ifs <;> simp


/-! ## Sequences of calls without `Load` -/

theorem lastFor_congr_append {l1 l2 : List CEntry} (h : ∀ a, lastFor l1 a = lastFor l2 a)
    (r : List CEntry) (a : NETADDR) : lastFor (l1 ++ r) a = lastFor (l2 ++ r) a := by
  rw [lastFor_append, lastFor_append, h]

/-- Calls other than `Load` always complete; afterwards the canonical sequence is
strictly ascending, and canonical sequence and pending buffer together hold for
every address the most recent of what they held before and what was observed. -/
theorem run_notLoad {cmp : NETADDR → NETADDR → Int} (hc : TotalOrder cmp)
    (parse : String → Option NETADDR) (fmt : NETADDR → String) (calls : List Call) :
    ∀ self : CServerBrowserPingCache, (∀ c ∈ calls, c.notLoad = true) →
      StrictAsc cmp self.m_vEntries →
      ∃ self1, run cmp parse fmt self calls = some self1 ∧
        StrictAsc cmp self1.m_vEntries ∧
        ∀ a, lastFor (self1.m_vEntries ++ self1.m_vNewEntries) a =
          lastFor (self.m_vEntries ++ self.m_vNewEntries ++ observations calls) a := by
  induction calls with
  | nil =>
    intro self _ hs
    exact ⟨self, rfl, hs, by simp [observations]⟩
  | cons c cs ih =>
    intro self hn hs
    have hn1 : ∀ c ∈ cs, c.notLoad = true := fun c hc => hn c (List.mem_cons_of_mem _ hc)
    cases c with
    | Load steps =>
      have := hn (Call.Load steps) (List.mem_cons_self _ _)
      simp [Call.notLoad] at this
    | CachePing Addr Ping sql =>
      obtain ⟨self1, h1, h2, h3⟩ := ih (CachePing fmt self Addr Ping sql) hn1
        (by rw [CachePing_m_vEntries]; exact hs)
      refine ⟨self1, h1, h2, ?_⟩
      intro a
      rw [h3, CachePing_m_vEntries, CachePing_m_vNewEntries]
      simp [observations]
    | GetPingCache =>
      obtain ⟨self1, h1, h2, h3⟩ := ih (GetPingCache cmp self).1 hn1
        (by rw [GetPingCache_fst]; exact strictAsc_Flatten hc hs _)
      refine ⟨self1, h1, h2, ?_⟩
      intro a
      rw [h3, GetPingCache_fst]
      simp only [List.append_nil, observations]
      exact lastFor_congr_append (fun a => lastFor_Flatten hc hs _ a) _ a

/-! ## The last-write-wins reference -/

theorem strictAsc_lastWriteWins {cmp : NETADDR → NETADDR → Int} (hc : TotalOrder cmp)
    (obs : List CEntry) : StrictAsc cmp (lastWriteWins cmp obs) := by
  haveI : IsTotal NETADDR (fun a b => cmp a b ≤ 0) :=
    ⟨fun a b => by
      by_cases h : cmp a b ≤ 0
      · exact Or.inl h
      · exact Or.inr (le_of_lt ((hc.swap b a).2 (by omega)))⟩
  haveI : IsTrans NETADDR (fun a b => cmp a b ≤ 0) :=
    ⟨fun a b c h1 h2 => by
      by_cases e1 : a = b
      · subst e1; exact h2
      · by_cases e2 : b = c
        · subst e2; exact h1
        · have n1 : cmp a b ≠ 0 := fun e => e1 ((hc.eq_iff _ _).1 e)
          have n2 : cmp b c ≠ 0 := fun e => e2 ((hc.eq_iff _ _).1 e)
          exact le_of_lt (hc.trans a b c (by omega) (by omega))⟩
  have hs := List.sorted_insertionSort (fun a b => cmp a b ≤ 0)
    ((obs.map CEntry.m_Addr).dedup)
  have hd : (((obs.map CEntry.m_Addr).dedup).insertionSort (fun a b => cmp a b ≤ 0)).Nodup :=
    (List.perm_insertionSort _ _).nodup_iff.2 (List.nodup_dedup _)
  unfold lastWriteWins StrictAsc
  rw [List.pairwise_map]
  have := List.Pairwise.and hs hd
  refine this.imp ?_
  rintro a b ⟨h1, h2⟩
  have n1 : cmp a b ≠ 0 := fun e => h2 ((hc.eq_iff _ _).1 e)
  simp only
  omega

theorem mem_lastWriteWins {cmp : NETADDR → NETADDR → Int} (obs : List CEntry) (e : CEntry) :
    e ∈ lastWriteWins cmp obs ↔ lastFor obs e.m_Addr = some e := by
  unfold lastWriteWins
  simp only [List.mem_map, List.mem_insertionSort, List.mem_dedup]
  constructor
  · rintro ⟨a, ⟨e1, he1, rfl⟩, rfl⟩
    obtain ⟨e2, he2⟩ := lastFor_isSome_of_mem he1
    simp only [mostRecentPing, he2]
    have := (lastFor_some he2).2
    cases e2
    simp_all
  · intro h
    have h1 := lastFor_some h
    refine ⟨e.m_Addr, ⟨e, h1.1, rfl⟩, ?_⟩
    simp [mostRecentPing, h]

theorem StrictAsc.ext_mem {cmp : NETADDR → NETADDR → Int} (hc : TotalOrder cmp)
    {l1 l2 : List CEntry} (h1 : StrictAsc cmp l1) (h2 : StrictAsc cmp l2)
    (h : ∀ e, e ∈ l1 ↔ e ∈ l2) : l1 = l2 := by
  apply StrictAsc.ext hc h1 h2
  intro a
  cases hx : lastFor l1 a with
  | some e =>
    have he := lastFor_some hx
    have := h2.lastFor_of_mem hc ((h e).1 he.1)
    rw [he.2] at this
    exact this.symm
  | none =>
    symm
    rw [lastFor_eq_none] at hx ⊢
    exact fun e he => hx e ((h e).2 he)


/-! ## What a snapshot holds -/

theorem mem_Flatten {cmp : NETADDR → NETADDR → Int} (hc : TotalOrder cmp)
    {E : List CEntry} (hE : StrictAsc cmp E) (P : List CEntry) (e : CEntry) :
    e ∈ Flatten cmp E P ↔ lastFor (E ++ P) e.m_Addr = some e := by
  rw [(strictAsc_Flatten hc hE P).mem_iff hc, lastFor_Flatten hc hE]

/-- The entries of a snapshot that compare equal to an address are the most recent
observation for it, if there is one. -/
theorem filter_Flatten {cmp : NETADDR → NETADDR → Int} (hc : TotalOrder cmp)
    {E : List CEntry} (hE : StrictAsc cmp E) (P : List CEntry) (a : NETADDR) :
    (Flatten cmp E P).filter (fun e => decide (cmp e.m_Addr a = 0)) =
      (lastFor (E ++ P) a).toList := by
  rw [← lastFor_Flatten hc hE, ← (strictAsc_Flatten hc hE P).filter_eq hc]
  apply List.filter_congr
  intro x _
  simp [hc.eq_iff]

theorem lastFor_append_singleton (l : List CEntry) (a : NETADDR) (p : Int) :
    lastFor (l ++ [CEntry.mk a p]) a = some (CEntry.mk a p) := by
  rw [lastFor_append]
  simp [lastFor]


/-! ## The claims -/

/-- C1: assuming the address comparator is a total order, in every state reachable
from the freshly constructed cache by `Load`, `CachePing` and `GetPingCache` calls
the canonical sequence `m_vEntries` is strictly ascending under the comparator, no
two of its entries compare equal, and the sequence a `GetPingCache` call returns
from that state is strictly ascending too. -/
theorem canonical_strictly_ascending (cmp : NETADDR → NETADDR → Int)
    (parse : String → Option NETADDR) (fmt : NETADDR → String) (hc : TotalOrder cmp)
    (SqliteOpen : Option Table) (ExecResult : Int) (LoadStmt StoreStmt : Bool)
    (self : CServerBrowserPingCache)
    (h : Reachable cmp parse fmt
      (CServerBrowserPingCache.ctor SqliteOpen ExecResult LoadStmt StoreStmt) self) :
    StrictAsc cmp self.m_vEntries ∧
    self.m_vEntries.Pairwise
      (fun x y => cmp x.m_Addr y.m_Addr ≠ 0 ∧ cmp y.m_Addr x.m_Addr ≠ 0) ∧
    StrictAsc cmp (GetPingCache cmp self).2.1 := by
  have h0 : StrictAsc cmp
      (CServerBrowserPingCache.ctor SqliteOpen ExecResult LoadStmt StoreStmt).m_vEntries := by
    rw [(ctor_m_vEntries _ _ _ _).1]; exact List.Pairwise.nil
  have h1 := h.strictAsc hc h0
  refine ⟨h1, ?_, ?_⟩
  · refine List.Pairwise.imp ?_ h1
    intro x y hxy
    have := (hc.swap _ _).1 hxy
    constructor <;> omega
  · rw [GetPingCache_snd]
    exact strictAsc_Flatten hc h1 _

/-- C1 at a concrete run: two `CachePing` calls and a `GetPingCache` on the object
built without a disk. -/
theorem canonical_strictly_ascending_witness :
    TotalOrder net_addr_comp_lex ∧
    Reachable net_addr_comp_lex net_addr_from_str_two net_addr_str_dots
      (CServerBrowserPingCache.ctor none SQLITE_OK false false)
      (GetPingCache net_addr_comp_lex
        (CachePing net_addr_str_dots
          (CachePing net_addr_str_dots (CServerBrowserPingCache.ctor none SQLITE_OK false false)
            addr_5_6_7_8 30 sqlOk)
          addr_1_2_3_4 50 sqlOk)).1 ∧
    StrictAsc net_addr_comp_lex
      (GetPingCache net_addr_comp_lex
        (CachePing net_addr_str_dots
          (CachePing net_addr_str_dots (CServerBrowserPingCache.ctor none SQLITE_OK false false)
            addr_5_6_7_8 30 sqlOk)
          addr_1_2_3_4 50 sqlOk)).1.m_vEntries :=
  ⟨net_addr_comp_lex_total,
    Reachable.GetPingCache (Reachable.CachePing _ _ _ (Reachable.CachePing _ _ _ Reachable.init)),
    (canonical_strictly_ascending net_addr_comp_lex net_addr_from_str_two net_addr_str_dots
      net_addr_comp_lex_total none SQLITE_OK false false _
      (Reachable.GetPingCache
        (Reachable.CachePing _ _ _ (Reachable.CachePing _ _ _ Reachable.init)))).1⟩

/-- C2: last-write-wins reference semantics.  Starting from the empty cache, every
finite sequence of `CachePing` and `GetPingCache` calls (no `Load`) completes, and a
final `GetPingCache` returns exactly the distinct port-zeroed addresses passed to
`CachePing`, sorted ascending by the comparator, each paired with the ping of the
most recent `CachePing` call for that address; which addresses are returned does not
depend on the pings. -/
theorem last_write_wins (cmp : NETADDR → NETADDR → Int)
    (parse : String → Option NETADDR) (fmt : NETADDR → String) (hc : TotalOrder cmp)
    (SqliteOpen : Option Table) (ExecResult : Int) (LoadStmt StoreStmt : Bool)
    (calls : List Call) (hn : ∀ c ∈ calls, c.notLoad = true) :
    ∃ self,
      run cmp parse fmt
        (CServerBrowserPingCache.ctor SqliteOpen ExecResult LoadStmt StoreStmt) calls =
          some self ∧
      (GetPingCache cmp self).2.1 = lastWriteWins cmp (observations calls) ∧
      (GetPingCache cmp self).2.2 = (lastWriteWins cmp (observations calls)).length ∧
      ((GetPingCache cmp self).2.1).map CEntry.m_Addr =
        (((observations calls).map CEntry.m_Addr).dedup).insertionSort
          (fun a b => cmp a b ≤ 0) := by
  obtain ⟨h01, h02⟩ := ctor_m_vEntries SqliteOpen ExecResult LoadStmt StoreStmt
  obtain ⟨self, h1, h2, h3⟩ := run_notLoad hc parse fmt calls
    (CServerBrowserPingCache.ctor SqliteOpen ExecResult LoadStmt StoreStmt) hn
    (by rw [h01]; exact List.Pairwise.nil)
  rw [h01, h02] at h3
  simp only [List.nil_append] at h3
  have key : Flatten cmp self.m_vEntries self.m_vNewEntries =
      lastWriteWins cmp (observations calls) := by
    apply StrictAsc.ext_mem hc (strictAsc_Flatten hc h2 _) (strictAsc_lastWriteWins hc _)
    intro e
    rw [mem_Flatten hc h2, mem_lastWriteWins, h3]
  refine ⟨self, h1, ?_, ?_, ?_⟩
  · rw [GetPingCache_snd, key]
  · rw [GetPingCache_snd, key]
  · rw [GetPingCache_snd, key]
    unfold lastWriteWins
    rw [List.map_map]
    exact List.map_id _

/-- C2 at a concrete run: the same address is pinged with 70, snapshotted, and
pinged again with 20 after another address. -/
theorem last_write_wins_witness :
    TotalOrder net_addr_comp_lex ∧
    (∀ c ∈ [Call.CachePing addr_5_6_7_8 70 sqlOk, Call.GetPingCache,
        Call.CachePing addr_1_2_3_4 50 sqlOk, Call.CachePing addr_5_6_7_8 20 sqlOk],
      c.notLoad = true) ∧
    ∃ self,
      run net_addr_comp_lex net_addr_from_str_two net_addr_str_dots
        (CServerBrowserPingCache.ctor none SQLITE_OK false false)
        [Call.CachePing addr_5_6_7_8 70 sqlOk, Call.GetPingCache,
          Call.CachePing addr_1_2_3_4 50 sqlOk, Call.CachePing addr_5_6_7_8 20 sqlOk] =
          some self ∧
      (GetPingCache net_addr_comp_lex self).2.1 = [⟨addr_1_2_3_4, 50⟩, ⟨addr_5_6_7_8, 20⟩] := by
  refine ⟨net_addr_comp_lex_total, by decide, ?_⟩
  obtain ⟨self, h1, h2, _⟩ := last_write_wins net_addr_comp_lex net_addr_from_str_two
    net_addr_str_dots net_addr_comp_lex_total none SQLITE_OK false false
    [Call.CachePing addr_5_6_7_8 70 sqlOk, Call.GetPingCache,
      Call.CachePing addr_1_2_3_4 50 sqlOk, Call.CachePing addr_5_6_7_8 20 sqlOk] (by decide)
  refine ⟨self, h1, ?_⟩
  rw [h2]
  decide


/-- C3: recency wins inside one flatten.  In every state whose canonical sequence is
strictly ascending (as it is in every reachable state), after `CachePing(A, p1)`,
`CachePing(A, p2)` and `GetPingCache` the returned sequence has exactly one entry
whose address compares equal to `A` with port zero, and its ping is `p2`, whatever
`p1` and `p2` are.  More generally, for each element of the pending buffer the
returned sequence has exactly one entry whose address compares equal to the
element's: the last pending element with that address. -/
theorem recency_wins (cmp : NETADDR → NETADDR → Int) (fmt : NETADDR → String)
    (hc : TotalOrder cmp) (self : CServerBrowserPingCache)
    (hs : StrictAsc cmp self.m_vEntries) (A : NETADDR) (p1 p2 : Int)
    (sql1 sql2 : StoreResults) :
    (GetPingCache cmp (CachePing fmt (CachePing fmt self A p1 sql1) A p2 sql2)).2.1.filter
        (fun e => decide (cmp e.m_Addr { A with port := 0 } = 0)) =
      [CEntry.mk { A with port := 0 } p2] ∧
    ∀ x ∈ self.m_vNewEntries, ∃ e,
      lastFor self.m_vNewEntries x.m_Addr = some e ∧
      (GetPingCache cmp self).2.1.filter (fun y => decide (cmp y.m_Addr x.m_Addr = 0)) = [e] := by
  constructor
  · rw [GetPingCache_snd]
    simp only [CachePing_m_vEntries, CachePing_m_vNewEntries]
    rw [filter_Flatten hc hs, ← List.append_assoc, lastFor_append_singleton]
    rfl
  · intro x hx
    obtain ⟨e, he⟩ := lastFor_isSome_of_mem hx
    refine ⟨e, he, ?_⟩
    rw [GetPingCache_snd]
    simp only
    rw [filter_Flatten hc hs, lastFor_append, he]
    rfl

/-- C3 at a concrete state: 5.6.7.8 is pinged with 70 and then with 20. -/
theorem recency_wins_witness :
    TotalOrder net_addr_comp_lex ∧ StrictAsc net_addr_comp_lex noDisk.m_vEntries ∧
    (GetPingCache net_addr_comp_lex
        (CachePing net_addr_str_dots (CachePing net_addr_str_dots noDisk addr_5_6_7_8 70 sqlOk)
          addr_5_6_7_8 20 sqlOk)).2.1.filter
        (fun e => decide (net_addr_comp_lex e.m_Addr { addr_5_6_7_8 with port := 0 } = 0)) =
      [CEntry.mk { addr_5_6_7_8 with port := 0 } 20] :=
  ⟨net_addr_comp_lex_total, by decide,
    (recency_wins net_addr_comp_lex net_addr_str_dots net_addr_comp_lex_total noDisk
      (by decide) addr_5_6_7_8 70 20 sqlOk sqlOk).1⟩

/-- C5: retention.  For every strictly ascending canonical sequence `old` and every
pending buffer, the addresses of the flattened sequence are exactly those of `old`
together with those of the pending buffer; every entry of `old` whose address does
not occur in the pending buffer is in the result unchanged; and every address that
occurs only in the pending buffer is in the result, with the ping last appended for
it. -/
theorem retention (cmp : NETADDR → NETADDR → Int) (hc : TotalOrder cmp)
    (old pending : List CEntry) (ho : StrictAsc cmp old) :
    (∀ a, (∃ e ∈ Flatten cmp old pending, e.m_Addr = a) ↔
      ((∃ e ∈ old, e.m_Addr = a) ∨ (∃ e ∈ pending, e.m_Addr = a))) ∧
    (∀ e ∈ old, (∀ n ∈ pending, n.m_Addr ≠ e.m_Addr) → e ∈ Flatten cmp old pending) ∧
    (∀ n ∈ pending, (∀ e ∈ old, e.m_Addr ≠ n.m_Addr) →
      ∃ e ∈ Flatten cmp old pending, e.m_Addr = n.m_Addr ∧
        lastFor pending n.m_Addr = some e) := by
  refine ⟨?_, ?_, ?_⟩
  · intro a
    constructor
    · rintro ⟨e, he, rfl⟩
      have := lastFor_some ((mem_Flatten hc ho pending e).1 he)
      rcases List.mem_append.1 this.1 with h | h
      · exact Or.inl ⟨e, h, rfl⟩
      · exact Or.inr ⟨e, h, rfl⟩
    · intro h
      have hmem : ∃ e ∈ old ++ pending, e.m_Addr = a := by
        rcases h with ⟨e, he, rfl⟩ | ⟨e, he, rfl⟩
        · exact ⟨e, List.mem_append_left _ he, rfl⟩
        · exact ⟨e, List.mem_append_right _ he, rfl⟩
      obtain ⟨e, he, rfl⟩ := hmem
      obtain ⟨e1, he1⟩ := lastFor_isSome_of_mem he
      have h2 := (lastFor_some he1).2
      rw [← h2] at he1
      exact ⟨e1, (mem_Flatten hc ho pending e1).2 he1, h2⟩
  · intro e he hn
    rw [mem_Flatten hc ho, lastFor_append, lastFor_eq_none.2 hn, Option.none_or]
    exact ho.lastFor_of_mem hc he
  · intro n hn ho1
    obtain ⟨e, he⟩ := lastFor_isSome_of_mem hn
    have h2 := (lastFor_some he).2
    refine ⟨e, ?_, h2, he⟩
    rw [mem_Flatten hc ho, lastFor_append, h2, he]
    rfl

/-- C5 at a concrete flatten: 1.2.3.4 is only in the canonical sequence, 5.6.7.8 is
only pending. -/
theorem retention_witness :
    TotalOrder net_addr_comp_lex ∧
    StrictAsc net_addr_comp_lex [CEntry.mk addr_1_2_3_4 50] ∧
    (∀ e ∈ [CEntry.mk addr_1_2_3_4 50],
      (∀ n ∈ [CEntry.mk addr_5_6_7_8 30], n.m_Addr ≠ e.m_Addr) →
      e ∈ Flatten net_addr_comp_lex [CEntry.mk addr_1_2_3_4 50] [CEntry.mk addr_5_6_7_8 30]) :=
  ⟨net_addr_comp_lex_total, by decide,
    (retention net_addr_comp_lex net_addr_comp_lex_total [CEntry.mk addr_1_2_3_4 50]
      [CEntry.mk addr_5_6_7_8 30] (by decide)).2.1⟩

/-- C6: idempotent snapshot.  For every state, a second `GetPingCache` with no call in
between returns the same sequence and the same count as the first, and leaves the
whole object as the first call left it. -/
theorem idempotent_snapshot (cmp : NETADDR → NETADDR → Int)
    (self : CServerBrowserPingCache) :
    (GetPingCache cmp (GetPingCache cmp self).1).2.1 = (GetPingCache cmp self).2.1 ∧
    (GetPingCache cmp (GetPingCache cmp self).1).2.2 = (GetPingCache cmp self).2.2 ∧
    (GetPingCache cmp (GetPingCache cmp self).1).1 = (GetPingCache cmp self).1 := by
  have h : (GetPingCache cmp self).1.m_vNewEntries = [] := by rw [GetPingCache_fst]
  have h0 : ∀ s : CServerBrowserPingCache, s.m_vNewEntries = [] →
      (GetPingCache cmp s).1 = s := by
    intro s hs
    unfold GetPingCache
    simp [hs]
  have h1 : (GetPingCache cmp (GetPingCache cmp self).1).1 = (GetPingCache cmp self).1 :=
    h0 _ h
  have h2 : ∀ s : CServerBrowserPingCache,
      (GetPingCache cmp s).2 =
        ((GetPingCache cmp s).1.m_vEntries, (GetPingCache cmp s).1.m_vEntries.length) :=
    fun _ => rfl
  refine ⟨?_, ?_, h1⟩
  · rw [h2, h2, h1]
  · rw [h2, h2, h1]

/-- C7: port normalization.  In every state whose canonical sequence is strictly
ascending, `CachePing` of `a` with port `q1` followed by `GetPingCache` exposes the
entry with address `a` with port zero; after `CachePing` of `a` with port `q1` and
ping `p1` and `CachePing` of `a` with port `q2` and ping `p2`, `GetPingCache` returns
exactly one entry whose address compares equal to `a` with port zero, with ping `p2`;
if no entry held before has a port, that is also the only entry for the host of `a`
whatever the port; and from the empty cache the result is that single entry. -/
theorem port_normalization (cmp : NETADDR → NETADDR → Int) (fmt : NETADDR → String)
    (hc : TotalOrder cmp) (self : CServerBrowserPingCache)
    (hs : StrictAsc cmp self.m_vEntries) (a : NETADDR) (q1 q2 : Nat) (p1 p2 : Int)
    (sql1 sql2 : StoreResults) :
    CEntry.mk { a with port := 0 } p1 ∈
      (GetPingCache cmp (CachePing fmt self { a with port := q1 } p1 sql1)).2.1 ∧
    (GetPingCache cmp
        (CachePing fmt (CachePing fmt self { a with port := q1 } p1 sql1)
          { a with port := q2 } p2 sql2)).2.1.filter
        (fun e => decide (cmp e.m_Addr { a with port := 0 } = 0)) =
      [CEntry.mk { a with port := 0 } p2] ∧
    ((∀ e ∈ self.m_vEntries ++ self.m_vNewEntries, e.m_Addr.port = 0) →
      (GetPingCache cmp
        (CachePing fmt (CachePing fmt self { a with port := q1 } p1 sql1)
          { a with port := q2 } p2 sql2)).2.1.filter
        (fun e => decide (({ e.m_Addr with port := 0 } : NETADDR) = { a with port := 0 })) =
      [CEntry.mk { a with port := 0 } p2]) ∧
    (self.m_vEntries = [] → self.m_vNewEntries = [] →
      (GetPingCache cmp
        (CachePing fmt (CachePing fmt self { a with port := q1 } p1 sql1)
          { a with port := q2 } p2 sql2)).2 = ([CEntry.mk { a with port := 0 } p2], 1)) := by
  have hfilter : (GetPingCache cmp
        (CachePing fmt (CachePing fmt self { a with port := q1 } p1 sql1)
          { a with port := q2 } p2 sql2)).2.1.filter
        (fun e => decide (cmp e.m_Addr { a with port := 0 } = 0)) =
      [CEntry.mk { a with port := 0 } p2] := by
    rw [GetPingCache_snd]
    simp only [CachePing_m_vEntries, CachePing_m_vNewEntries]
    rw [filter_Flatten hc hs, ← List.append_assoc]
    exact congrArg Option.toList (lastFor_append_singleton _ _ _)
  refine ⟨?_, hfilter, ?_, ?_⟩
  · rw [GetPingCache_snd]
    simp only [CachePing_m_vEntries, CachePing_m_vNewEntries]
    rw [mem_Flatten hc hs, ← List.append_assoc]
    exact lastFor_append_singleton _ _ _
  · intro hp
    rw [← hfilter]
    apply List.filter_congr
    intro x hx
    rw [GetPingCache_snd] at hx
    simp only [CachePing_m_vEntries, CachePing_m_vNewEntries] at hx
    have hx1 := (lastFor_some ((mem_Flatten hc hs _ _).1 hx)).1
    have hport : x.m_Addr.port = 0 := by
      simp only [List.mem_append, List.mem_singleton] at hx1
      rcases hx1 with h | (h | h) | h
      · exact hp x (List.mem_append_left _ h)
      · exact hp x (List.mem_append_right _ h)
      · rw [h]
      · rw [h]
    have hx2 : ({ x.m_Addr with port := 0 } : NETADDR) = x.m_Addr := by
      cases hxa : x.m_Addr
      rw [hxa] at hport
      simp only at hport
      simp [hport]
    rw [hx2]
    simp [hc.eq_iff]
  · intro h1 h2
    rw [GetPingCache_snd]
    simp only [CachePing_m_vEntries, CachePing_m_vNewEntries, h1, h2, List.nil_append]
    have : Flatten cmp [] [CEntry.mk { a with port := 0 } p1, CEntry.mk { a with port := 0 } p2]
        = [CEntry.mk { a with port := 0 } p2] := by
      rw [Flatten_eq]
      have e1 : stable_sort (CAddrComparer cmp)
          [CEntry.mk { a with port := 0 } p1, CEntry.mk { a with port := 0 } p2] =
          [CEntry.mk { a with port := 0 } p1, CEntry.mk { a with port := 0 } p2] := by
        simp [stable_sort, List.insertionSort, List.orderedInsert, CAddrComparer, hc.refl]
      rw [e1]
      simp [lastOfRuns, hc.refl, mergeLists]
    simp only [List.singleton_append]
    rw [this]
    rfl

/-- C7 at a concrete state: 1.2.3.4 is pinged on port 7000 and then on port 8303. -/
theorem port_normalization_witness :
    TotalOrder net_addr_comp_lex ∧ StrictAsc net_addr_comp_lex noDisk.m_vEntries ∧
    (GetPingCache net_addr_comp_lex
        (CachePing net_addr_str_dots
          (CachePing net_addr_str_dots noDisk { addr_1_2_3_4 with port := 7000 } 50 sqlOk)
          { addr_1_2_3_4 with port := 8303 } 30 sqlOk)).2.1.filter
        (fun e => decide (net_addr_comp_lex e.m_Addr { addr_1_2_3_4 with port := 0 } = 0)) =
      [CEntry.mk { addr_1_2_3_4 with port := 0 } 30] :=
  ⟨net_addr_comp_lex_total, by decide,
    (port_normalization net_addr_comp_lex net_addr_str_dots net_addr_comp_lex_total noDisk
      (by decide) addr_1_2_3_4 7000 8303 50 30 sqlOk sqlOk).2.1⟩


/-! ## Load -/

theorem resize_length (v : List CEntry) : resize v v.length = v := by
  simp [resize]

theorem resize_append (v w : List CEntry) : resize (v ++ w) v.length = v := by
  simp [resize]

/-- The loop of `Load` over rows: it appends the rows that parse, and warns once,
for the first row that does not, unless it had warned before. -/
theorem LoadLoop_rows (parse : String → Option NETADDR) (rows : List SqliteStep)
    (hrows : ∀ r ∈ rows, r.StepResult = SQLITE_ROW) (rest : List SqliteStep) :
    ∀ (warned : Bool) (v : List CEntry) (con : List String),
      LoadLoop parse (rows ++ rest) ⟨false, warned, v, con⟩ =
        LoadLoop parse rest
          ⟨false, warned || (firstBadAddress parse rows).isSome, v ++ parsedRows parse rows,
            con ++ (if warned then [] else badAddressWarning parse rows)⟩ := by
  induction rows with
  | nil =>
    intro warned v con
    cases warned <;> simp [firstBadAddress, parsedRows, badAddressWarning]
  | cons r rows ih =>
    intro warned v con
    have hr : r.StepResult = SQLITE_ROW := hrows r (List.mem_cons_self _ _)
    have ih1 := ih (fun r hr => hrows r (List.mem_cons_of_mem _ hr))
    have hne : SQLITE_ROW ≠ SQLITE_DONE := by decide
    rw [List.cons_append, LoadLoop]
    simp only [SQLITE_HANDLE_ERROR, hr, if_neg hne, if_true, Bool.false_eq_true, if_false]
    cases hp : parse r.pIpAddress with
    | none =>
      cases warned with
      | false =>
        simp only [Bool.not_false, if_true]
        rw [ih1]
        simp [firstBadAddress, parsedRows, badAddressWarning, hp]
      | true =>
        simp only [Bool.not_true, Bool.false_eq_true, if_false]
        rw [ih1]
        simp [firstBadAddress, parsedRows, badAddressWarning, hp]
    | some Addr =>
      simp only
      rw [ih1]
      cases warned <;> simp [firstBadAddress, parsedRows, badAddressWarning, hp]

theorem LoadLoop_error (parse : String → Option NETADDR) (steps : List SqliteStep)
    (warned : Bool) (v : List CEntry) (con : List String) :
    LoadLoop parse steps ⟨true, warned, v, con⟩ = some ⟨true, warned, v, con⟩ := by
  cases steps <;> simp [LoadLoop]

theorem str_format_invalid_address_ne (pIpAddress : String) :
    str_format 64 ("invalid address: " ++ pIpAddress) ≠ "failed to load ping cache" := by
  intro h
  have h1 := congrArg String.data h
  simp only [str_format, String.data_append] at h1
  simp at h1

theorem count_badAddressWarning (parse : String → Option NETADDR) (rows : List SqliteStep) :
    (badAddressWarning parse rows).count "failed to load ping cache" = 0 := by
  unfold badAddressWarning
  cases firstBadAddress parse rows with
  | none => simp
  | some ip =>
    simp only
    rw [List.count_eq_zero]
    simp only [List.mem_singleton]
    exact fun h => str_format_invalid_address_ne ip h.symm

/-- C8: partial-load rollback.  With an open handle and a prepared load statement,
when the storage yields any number of rows, of which any number parse, and then a
step result that is neither ROW nor DONE, `Load` completes, leaves the pending buffer
exactly as it was before the call (none of the rows is kept), leaves the canonical
sequence unchanged, and prints, after at most one warning about an unparsable
address, exactly one "failed to load ping cache". -/
theorem partial_load_rollback (parse : String → Option NETADDR)
    (self : CServerBrowserPingCache) (disk : Table) (rows : List SqliteStep)
    (bad : SqliteStep) (rest : List SqliteStep)
    (hd : self.m_pDisk = some disk) (hl : self.m_pLoadStmt = true)
    (hrows : ∀ r ∈ rows, r.StepResult = SQLITE_ROW)
    (hbad : bad.StepResult ≠ SQLITE_ROW ∧ bad.StepResult ≠ SQLITE_DONE) :
    ∃ self1, Load parse self (rows ++ bad :: rest) = some self1 ∧
      self1.m_vNewEntries = self.m_vNewEntries ∧
      self1.m_vNewEntries.length = self.m_vNewEntries.length ∧
      self1.m_vEntries = self.m_vEntries ∧
      self1.m_pConsole =
        self.m_pConsole ++ badAddressWarning parse rows ++ ["failed to load ping cache"] ∧
      self1.m_pConsole.count "failed to load ping cache" =
        self.m_pConsole.count "failed to load ping cache" + 1 := by
  have hloop : LoadLoop parse (rows ++ bad :: rest)
      ⟨false || !self.m_pLoadStmt, false, self.m_vNewEntries, self.m_pConsole⟩ =
      some ⟨true, false || (firstBadAddress parse rows).isSome,
        self.m_vNewEntries ++ parsedRows parse rows,
        self.m_pConsole ++ badAddressWarning parse rows⟩ := by
    rw [hl]
    simp only [Bool.not_true, Bool.or_self]
    rw [LoadLoop_rows parse rows hrows, LoadLoop]
    simp only [SQLITE_HANDLE_ERROR, if_neg hbad.1, if_neg hbad.2, Bool.false_eq_true, if_false]
    rw [LoadLoop_error]
  refine ⟨{ self with
      m_pConsole :=
        self.m_pConsole ++ badAddressWarning parse rows ++ ["failed to load ping cache"] },
    ?_, rfl, rfl, rfl, rfl, ?_⟩
  · unfold Load
    rw [hd]
    simp only
    rw [hloop]
    simp only [if_true, resize_append]
  · simp only [List.count_append, count_badAddressWarning]
    simp

/-- C8 at a concrete load: one good row, one row with an unparsable address, then a
read failure (result code 1). -/
theorem partial_load_rollback_witness :
    (CachePing net_addr_str_dots
      (CServerBrowserPingCache.ctor (some []) SQLITE_OK true true)
      addr_5_6_7_8 30 sqlOk).m_pDisk = some [("5.6.7.8", 30)] ∧
    (∀ r ∈ [SqliteStep.mk SQLITE_ROW "1.2.3.4" 50, SqliteStep.mk SQLITE_ROW "bogus" 7],
      r.StepResult = SQLITE_ROW) ∧
    ∃ self1,
      Load net_addr_from_str_two
        (CachePing net_addr_str_dots
          (CServerBrowserPingCache.ctor (some []) SQLITE_OK true true) addr_5_6_7_8 30 sqlOk)
        ([SqliteStep.mk SQLITE_ROW "1.2.3.4" 50, SqliteStep.mk SQLITE_ROW "bogus" 7] ++
          SqliteStep.mk 1 "" 0 :: []) = some self1 ∧
      self1.m_vNewEntries = [CEntry.mk addr_5_6_7_8 30] := by
  refine ⟨by decide, by decide, ?_⟩
  obtain ⟨self1, h1, h2, _⟩ := partial_load_rollback net_addr_from_str_two
    (CachePing net_addr_str_dots
      (CServerBrowserPingCache.ctor (some []) SQLITE_OK true true) addr_5_6_7_8 30 sqlOk)
    [("5.6.7.8", 30)]
    [SqliteStep.mk SQLITE_ROW "1.2.3.4" 50, SqliteStep.mk SQLITE_ROW "bogus" 7]
    (SqliteStep.mk 1 "" 0) [] (by decide) (by decide) (by decide) (by decide)
  exact ⟨self1, h1, h2.trans (by decide)⟩


/-! ## CachePing and the disk -/

theorem CachePing_none (fmt : NETADDR → String) (self : CServerBrowserPingCache)
    (Addr : NETADDR) (Ping : Int) (sql : StoreResults) (hd : self.m_pDisk = none) :
    CachePing fmt self Addr Ping sql =
      { self with
        m_vNewEntries := self.m_vNewEntries ++ [CEntry.mk { Addr with port := 0 } Ping] } := by
  unfold CachePing
  simp only [hd]

theorem CachePing_some (fmt : NETADDR → String) (self : CServerBrowserPingCache)
    (Addr : NETADDR) (Ping : Int) (sql : StoreResults) (disk : Table)
    (hd : self.m_pDisk = some disk) :
    CachePing fmt self Addr Ping sql =
      if storeError self sql then
        { self with
          m_vNewEntries := self.m_vNewEntries ++ [CEntry.mk { Addr with port := 0 } Ping]
          m_pConsole := self.m_pConsole ++ ["failed to store ping"] }
      else
        { self with
          m_vNewEntries := self.m_vNewEntries ++ [CEntry.mk { Addr with port := 0 } Ping]
          m_pDisk := some (insertOrReplace disk (fmt { Addr with port := 0 }) Ping) } := by
  unfold CachePing
  simp only [hd, storeError, SQLITE_HANDLE_ERROR, Bool.false_or]

/-- C9: the in-memory effect of `CachePing` does not depend on persistence.  For every
state, address and ping and for every outcome of the durable write (no open handle,
a write that succeeds, a null store statement, or a failing reset, bind or step),
`CachePing` appends exactly one entry, the address with port zero and the ping, to the
end of the pending buffer and leaves the earlier pending entries and the canonical
sequence unchanged; it has no error result; the console gains the one line "failed to
store ping" when the handle is open and the write fails, and nothing otherwise. -/
theorem CachePing_in_memory (fmt : NETADDR → String) (self : CServerBrowserPingCache)
    (Addr : NETADDR) (Ping : Int) (sql : StoreResults) :
    (CachePing fmt self Addr Ping sql).m_vNewEntries =
      self.m_vNewEntries ++ [CEntry.mk { Addr with port := 0 } Ping] ∧
    (CachePing fmt self Addr Ping sql).m_vEntries = self.m_vEntries ∧
    (CachePing fmt self Addr Ping sql).m_pConsole =
      self.m_pConsole ++
        (if self.m_pDisk.isSome && storeError self sql then ["failed to store ping"] else []) := by
  refine ⟨CachePing_m_vNewEntries _ _ _ _ _, CachePing_m_vEntries _ _ _ _ _, ?_⟩
  cases hd : self.m_pDisk with
  | none => rw [CachePing_none fmt self Addr Ping sql hd]; simp
  | some disk =>
    rw [CachePing_some fmt self Addr Ping sql disk hd]
    cases storeError self sql <;> simp

/-! ## Degraded mode -/

theorem ctor_m_pDisk_none (SqliteOpen : Option Table) (ExecResult : Int)
    (LoadStmt StoreStmt : Bool) (h : SqliteOpen = none ∨ ExecResult ≠ SQLITE_OK) :
    (CServerBrowserPingCache.ctor SqliteOpen ExecResult LoadStmt StoreStmt).m_pDisk = none := by
  unfold CServerBrowserPingCache.ctor
  cases SqliteOpen with
  | none => rfl
  | some disk =>
    have h1 : ExecResult ≠ SQLITE_OK := by
      rcases h with h | h
      · cases h
      · exact h
    have h2 : ExecResult ≠ 0 := h1
    simp only [SQLITE_HANDLE_ERROR]
    rw [if_pos h2]

theorem ctor_ok (disk : Table) (LoadStmt StoreStmt : Bool) :
    CServerBrowserPingCache.ctor (some disk) SQLITE_OK LoadStmt StoreStmt =
      { m_pConsole := [], m_pDisk := some disk, m_pLoadStmt := LoadStmt,
        m_pStoreStmt := StoreStmt, m_vEntries := [], m_vNewEntries := [] } := by
  simp [CServerBrowserPingCache.ctor, SQLITE_HANDLE_ERROR, SQLITE_OK]

theorem Load_none (parse : String → Option NETADDR) (self : CServerBrowserPingCache)
    (steps : List SqliteStep) (hd : self.m_pDisk = none) : Load parse self steps = some self := by
  unfold Load
  simp only [hd]

theorem Load_no_statement (parse : String → Option NETADDR) (self : CServerBrowserPingCache)
    (steps : List SqliteStep) (disk : Table) (hd : self.m_pDisk = some disk)
    (hl : self.m_pLoadStmt = false) :
    Load parse self steps =
      some { self with m_pConsole := self.m_pConsole ++ ["failed to load ping cache"] } := by
  unfold Load
  simp only [hd, hl, Bool.not_false, Bool.or_true, LoadLoop_error, if_true, resize_length]


/-- C10 fails as stated when only a prepared query cannot be built.  The file opens
and the table is created, but the load statement is null: `Load` is not silent, it
prints "failed to load ping cache"; and `CachePing` does not skip the durable write,
the row reaches the table. -/
theorem degraded_mode_counterexample :
    (CServerBrowserPingCache.ctor (some []) SQLITE_OK false true).m_pLoadStmt = false ∧
    Load net_addr_from_str_two (CServerBrowserPingCache.ctor (some []) SQLITE_OK false true) [] =
      some { CServerBrowserPingCache.ctor (some []) SQLITE_OK false true with
        m_pConsole := ["failed to load ping cache"] } ∧
    (CachePing net_addr_str_dots (CServerBrowserPingCache.ctor (some []) SQLITE_OK false true)
      addr_1_2_3_4 50 sqlOk).m_pDisk = some [("1.2.3.4", 50)] := by
  decide

/-- C10, amended.  For the rest of the object's lifetime every `CachePing` appends to
the pending buffer and the next `GetPingCache` reflects it.  If the backing store
cannot be opened or the `server_pings` table cannot be created, every `Load` is a
no-op that prints nothing and every `CachePing` only appends: nothing is written and
nothing is printed.  If instead the load statement cannot be built, every `Load`
leaves pending buffer and canonical sequence unchanged but prints one "failed to load
ping cache"; if the store statement cannot be built, every `CachePing` appends, writes
nothing to the table and prints one "failed to store ping". -/
theorem degraded_mode (cmp : NETADDR → NETADDR → Int) (parse : String → Option NETADDR)
    (fmt : NETADDR → String) (hc : TotalOrder cmp)
    (SqliteOpen : Option Table) (ExecResult : Int) (LoadStmt StoreStmt : Bool)
    (self : CServerBrowserPingCache)
    (h : Reachable cmp parse fmt
      (CServerBrowserPingCache.ctor SqliteOpen ExecResult LoadStmt StoreStmt) self) :
    (∀ Addr Ping sql,
      (CachePing fmt self Addr Ping sql).m_vNewEntries =
        self.m_vNewEntries ++ [CEntry.mk { Addr with port := 0 } Ping] ∧
      CEntry.mk { Addr with port := 0 } Ping ∈
        (GetPingCache cmp (CachePing fmt self Addr Ping sql)).2.1) ∧
    ((SqliteOpen = none ∨ ExecResult ≠ SQLITE_OK) →
      (∀ steps, Load parse self steps = some self) ∧
      (∀ Addr Ping sql, CachePing fmt self Addr Ping sql =
        { self with
          m_vNewEntries := self.m_vNewEntries ++ [CEntry.mk { Addr with port := 0 } Ping] })) ∧
    (SqliteOpen ≠ none → ExecResult = SQLITE_OK → LoadStmt = false →
      ∀ steps, Load parse self steps =
        some { self with m_pConsole := self.m_pConsole ++ ["failed to load ping cache"] }) ∧
    (SqliteOpen ≠ none → ExecResult = SQLITE_OK → StoreStmt = false →
      ∀ Addr Ping sql, CachePing fmt self Addr Ping sql =
        { self with
          m_vNewEntries := self.m_vNewEntries ++ [CEntry.mk { Addr with port := 0 } Ping]
          m_pConsole := self.m_pConsole ++ ["failed to store ping"] }) := by
  obtain ⟨hD, hL, hS⟩ := h.handles
  have hs : StrictAsc cmp self.m_vEntries :=
    h.strictAsc hc (by rw [(ctor_m_vEntries _ _ _ _).1]; exact List.Pairwise.nil)
  refine ⟨?_, ?_, ?_, ?_⟩
  · intro Addr Ping sql
    refine ⟨CachePing_m_vNewEntries _ _ _ _ _, ?_⟩
    rw [GetPingCache_snd]
    simp only [CachePing_m_vEntries, CachePing_m_vNewEntries]
    rw [mem_Flatten hc hs, ← List.append_assoc]
    exact lastFor_append_singleton _ _ _
  · intro h0
    rw [ctor_m_pDisk_none _ _ _ _ h0] at hD
    have hd : self.m_pDisk = none := by
      cases hx : self.m_pDisk with
      | none => rfl
      | some d => rw [hx] at hD; simp at hD
    exact ⟨fun steps => Load_none parse self steps hd,
      fun Addr Ping sql => CachePing_none fmt self Addr Ping sql hd⟩
  · intro h1 h2 h3 steps
    obtain ⟨disk, rfl⟩ := Option.ne_none_iff_exists'.1 h1
    subst h2 h3
    rw [ctor_ok] at hD hL
    obtain ⟨d, hd⟩ := Option.isSome_iff_exists.1 hD
    exact Load_no_statement parse self steps d hd hL
  · intro h1 h2 h3 Addr Ping sql
    obtain ⟨disk, rfl⟩ := Option.ne_none_iff_exists'.1 h1
    subst h2 h3
    rw [ctor_ok] at hD hS
    obtain ⟨d, hd⟩ := Option.isSome_iff_exists.1 hD
    simp only at hS
    rw [CachePing_some fmt self Addr Ping sql d hd]
    simp [storeError, hS]

/-- C10, amended, at a concrete run: the file cannot be opened, 5.6.7.8 is pinged,
and then `Load` is called with rows to read. -/
theorem degraded_mode_witness :
    TotalOrder net_addr_comp_lex ∧
    Reachable net_addr_comp_lex net_addr_from_str_two net_addr_str_dots
      (CServerBrowserPingCache.ctor none SQLITE_OK true true)
      (CachePing net_addr_str_dots (CServerBrowserPingCache.ctor none SQLITE_OK true true)
        addr_5_6_7_8 30 sqlOk) ∧
    Load net_addr_from_str_two
      (CachePing net_addr_str_dots (CServerBrowserPingCache.ctor none SQLITE_OK true true)
        addr_5_6_7_8 30 sqlOk)
      [SqliteStep.mk SQLITE_ROW "1.2.3.4" 50, SqliteStep.mk 1 "" 0] =
      some (CachePing net_addr_str_dots (CServerBrowserPingCache.ctor none SQLITE_OK true true)
        addr_5_6_7_8 30 sqlOk) :=
  ⟨net_addr_comp_lex_total, Reachable.CachePing _ _ _ Reachable.init,
    ((degraded_mode net_addr_comp_lex net_addr_from_str_two net_addr_str_dots
      net_addr_comp_lex_total none SQLITE_OK true true _
      (Reachable.CachePing addr_5_6_7_8 30 sqlOk Reachable.init)).2.1 (Or.inl rfl)).1 _⟩


/-! ## What one `Load` does -/

theorem takeWhile_isRow (steps : List SqliteStep) :
    ∀ r ∈ steps.takeWhile isRow, r.StepResult = SQLITE_ROW := by
  intro r hr
  have := List.mem_takeWhile_imp hr
  simpa [isRow] using this

theorem parsedRows_eq_filterMap (parse : String → Option NETADDR) (rows : List SqliteStep) :
    parsedRows parse rows =
      rows.filterMap (fun r => (parse r.pIpAddress).map (fun Addr => CEntry.mk Addr r.Ping)) := by
  induction rows with
  | nil => rfl
  | cons r rows ih =>
    cases hp : parse r.pIpAddress with
    | none => simp [parsedRows, hp, ih, List.filterMap_cons]
    | some Addr => simp [parsedRows, hp, ih, List.filterMap_cons]

theorem firstBadAddress_eq_none {parse : String → Option NETADDR} {rows : List SqliteStep} :
    firstBadAddress parse rows = none ↔ ∀ r ∈ rows, parse r.pIpAddress ≠ none := by
  induction rows with
  | nil => simp [firstBadAddress]
  | cons r rows ih =>
    cases hp : parse r.pIpAddress with
    | none => simp [firstBadAddress, hp]
    | some Addr => simp [firstBadAddress, hp, ih]

/-- The loop of `Load` on any step results: it reads the rows up to the first result
that is not a row, and ends there, with `Error` set unless that result is DONE. -/
theorem LoadLoop_eq (parse : String → Option NETADDR) (steps : List SqliteStep)
    (warned : Bool) (v : List CEntry) (con : List String) :
    LoadLoop parse steps ⟨false, warned, v, con⟩ =
      match steps.dropWhile isRow with
      | [] => none
      | t :: _ =>
        some ⟨decide (t.StepResult ≠ SQLITE_DONE),
          warned || (firstBadAddress parse (steps.takeWhile isRow)).isSome,
          v ++ parsedRows parse (steps.takeWhile isRow),
          con ++ (if warned then [] else badAddressWarning parse (steps.takeWhile isRow))⟩ := by
  conv_lhs => rw [← List.takeWhile_append_dropWhile isRow steps]
  rw [LoadLoop_rows parse _ (takeWhile_isRow steps)]
  cases hdw : steps.dropWhile isRow with
  | nil => simp [LoadLoop]
  | cons t rest =>
    have hne : (steps.dropWhile isRow) ≠ [] := by rw [hdw]; simp
    have ht := List.head_dropWhile_not isRow steps hne
    simp only [hdw, List.head_cons] at ht
    have ht1 : t.StepResult ≠ SQLITE_ROW := by simpa [isRow] using ht
    simp only
    rw [LoadLoop]
    simp only [SQLITE_HANDLE_ERROR, Bool.false_eq_true, if_false]
    by_cases hD : t.StepResult = SQLITE_DONE
    · simp [hD]
    · rw [if_neg hD, if_neg ht1, LoadLoop_error]
      simp [hD]

/-- `Load` with an open handle and a load statement, on any step results. -/
theorem Load_eq (parse : String → Option NETADDR) (self : CServerBrowserPingCache)
    (disk : Table) (steps : List SqliteStep)
    (hd : self.m_pDisk = some disk) (hl : self.m_pLoadStmt = true) :
    Load parse self steps =
      match steps.dropWhile isRow with
      | [] => none
      | t :: _ =>
        if t.StepResult = SQLITE_DONE then
          some { self with
            m_pConsole := self.m_pConsole ++ badAddressWarning parse (steps.takeWhile isRow)
            m_vNewEntries := self.m_vNewEntries ++ parsedRows parse (steps.takeWhile isRow) }
        else
          some { self with
            m_pConsole := self.m_pConsole ++ badAddressWarning parse (steps.takeWhile isRow) ++
              ["failed to load ping cache"] } := by
  unfold Load
  simp only [hd, hl, Bool.not_true, Bool.or_self]
  rw [LoadLoop_eq]
  cases hdw : steps.dropWhile isRow with
  | nil => rfl
  | cons t rest =>
    simp only
    by_cases hD : t.StepResult = SQLITE_DONE
    · simp [hD]
    · simp [hD, resize_append]


/-- C11: successful load.  With an open handle and a prepared load statement, when the
storage yields any finite number of rows and then DONE, with no read failure, `Load`
completes and sets the pending buffer to what it was before the call followed by one
entry, the parsed address and the stored ping, for each row whose address text
parses, in the order of the rows; rows whose address does not parse are skipped, the
load is not aborted and prints no failure, and the canonical sequence is unchanged. -/
theorem successful_load (parse : String → Option NETADDR)
    (self : CServerBrowserPingCache) (disk : Table) (rows : List SqliteStep)
    (done : SqliteStep) (rest : List SqliteStep)
    (hd : self.m_pDisk = some disk) (hl : self.m_pLoadStmt = true)
    (hrows : ∀ r ∈ rows, r.StepResult = SQLITE_ROW)
    (hdone : done.StepResult = SQLITE_DONE) :
    ∃ self1, Load parse self (rows ++ done :: rest) = some self1 ∧
      self1.m_vNewEntries =
        self.m_vNewEntries ++
          rows.filterMap
            (fun r => (parse r.pIpAddress).map (fun Addr => CEntry.mk Addr r.Ping)) ∧
      self1.m_vEntries = self.m_vEntries ∧
      self1.m_pConsole = self.m_pConsole ++ badAddressWarning parse rows ∧
      "failed to load ping cache" ∉ badAddressWarning parse rows := by
  have hloop : LoadLoop parse (rows ++ done :: rest)
      ⟨false || !self.m_pLoadStmt, false, self.m_vNewEntries, self.m_pConsole⟩ =
      some ⟨false, false || (firstBadAddress parse rows).isSome,
        self.m_vNewEntries ++ parsedRows parse rows,
        self.m_pConsole ++ badAddressWarning parse rows⟩ := by
    rw [hl]
    simp only [Bool.not_true, Bool.or_self]
    rw [LoadLoop_rows parse rows hrows, LoadLoop]
    simp [SQLITE_HANDLE_ERROR, hdone]
  refine ⟨{ self with
      m_pConsole := self.m_pConsole ++ badAddressWarning parse rows
      m_vNewEntries := self.m_vNewEntries ++ parsedRows parse rows },
    ?_, ?_, rfl, rfl, ?_⟩
  · unfold Load
    rw [hd]
    simp only
    rw [hloop]
    simp
  · simp only [parsedRows_eq_filterMap]
  · intro hmem
    have := count_badAddressWarning parse rows
    rw [List.count_eq_zero] at this
    exact this hmem

/-- C11 at a concrete load: a good row, a row with an unparsable address, another
good row, then DONE. -/
theorem successful_load_witness :
    (CachePing net_addr_str_dots
      (CServerBrowserPingCache.ctor (some []) SQLITE_OK true true)
      addr_5_6_7_8 30 sqlOk).m_pDisk = some [("5.6.7.8", 30)] ∧
    (∀ r ∈ [SqliteStep.mk SQLITE_ROW "1.2.3.4" 50, SqliteStep.mk SQLITE_ROW "bogus" 7,
        SqliteStep.mk SQLITE_ROW "5.6.7.8" 20],
      r.StepResult = SQLITE_ROW) ∧
    ∃ self1,
      Load net_addr_from_str_two
        (CachePing net_addr_str_dots
          (CServerBrowserPingCache.ctor (some []) SQLITE_OK true true) addr_5_6_7_8 30 sqlOk)
        ([SqliteStep.mk SQLITE_ROW "1.2.3.4" 50, SqliteStep.mk SQLITE_ROW "bogus" 7,
            SqliteStep.mk SQLITE_ROW "5.6.7.8" 20] ++
          SqliteStep.mk SQLITE_DONE "" 0 :: []) = some self1 ∧
      self1.m_vNewEntries =
        [CEntry.mk addr_5_6_7_8 30, CEntry.mk addr_1_2_3_4 50, CEntry.mk addr_5_6_7_8 20] := by
  refine ⟨by decide, by decide, ?_⟩
  obtain ⟨self1, h1, h2, _⟩ := successful_load net_addr_from_str_two
    (CachePing net_addr_str_dots
      (CServerBrowserPingCache.ctor (some []) SQLITE_OK true true) addr_5_6_7_8 30 sqlOk)
    [("5.6.7.8", 30)]
    [SqliteStep.mk SQLITE_ROW "1.2.3.4" 50, SqliteStep.mk SQLITE_ROW "bogus" 7,
      SqliteStep.mk SQLITE_ROW "5.6.7.8" 20]
    (SqliteStep.mk SQLITE_DONE "" 0) [] (by decide) (by decide) (by decide) (by decide)
  exact ⟨self1, h1, h2.trans (by decide)⟩

/-! ## The warning about unparsable addresses -/

theorem isInvalidAddressWarning_str_format (pIpAddress : String) :
    isInvalidAddressWarning (str_format 64 ("invalid address: " ++ pIpAddress)) = true := by
  simp [isInvalidAddressWarning, str_format, String.data_append, List.take_take]

theorem filter_badAddressWarning (parse : String → Option NETADDR) (rows : List SqliteStep) :
    (badAddressWarning parse rows).filter isInvalidAddressWarning =
      badAddressWarning parse rows := by
  unfold badAddressWarning
  cases firstBadAddress parse rows with
  | none => rfl
  | some ip => simp [isInvalidAddressWarning_str_format]


/-- C12: anti-log-spam.  For every `Load` call that completes, the "invalid address"
warnings it prints are exactly one when at least one of the rows it reads has an
unparsable address and none otherwise, however many such rows there are; the one
warning is the line formatted for the first such row. -/
theorem anti_log_spam (parse : String → Option NETADDR)
    (self self1 : CServerBrowserPingCache) (steps : List SqliteStep)
    (h : Load parse self steps = some self1) :
    ∃ logged, self1.m_pConsole = self.m_pConsole ++ logged ∧
      logged.filter isInvalidAddressWarning =
        badAddressWarning parse (rowsEncountered self steps) ∧
      ((∃ r ∈ rowsEncountered self steps, parse r.pIpAddress = none) →
        (logged.filter isInvalidAddressWarning).length = 1) ∧
      ((∀ r ∈ rowsEncountered self steps, parse r.pIpAddress ≠ none) →
        (logged.filter isInvalidAddressWarning).length = 0) ∧
      (∀ pIpAddress, firstBadAddress parse (rowsEncountered self steps) = some pIpAddress →
        logged.filter isInvalidAddressWarning =
          [str_format 64 ("invalid address: " ++ pIpAddress)]) := by
  have key : ∃ logged, self1.m_pConsole = self.m_pConsole ++ logged ∧
      logged.filter isInvalidAddressWarning =
        badAddressWarning parse (rowsEncountered self steps) := by
    cases hd : self.m_pDisk with
    | none =>
      rw [Load_none parse self steps hd] at h
      cases h
      exact ⟨[], by simp, by simp [rowsEncountered, hd, badAddressWarning, firstBadAddress]⟩
    | some disk =>
      cases hl : self.m_pLoadStmt with
      | false =>
        rw [Load_no_statement parse self steps disk hd hl] at h
        cases h
        refine ⟨["failed to load ping cache"], rfl, ?_⟩
        simp only [rowsEncountered, hd, hl, badAddressWarning, firstBadAddress]
        decide
      | true =>
        rw [Load_eq parse self disk steps hd hl] at h
        have hrows : rowsEncountered self steps = steps.takeWhile isRow := by
          simp [rowsEncountered, hd, hl]
        rw [hrows]
        cases hdw : steps.dropWhile isRow with
        | nil => rw [hdw] at h; simp at h
        | cons t rest =>
          rw [hdw] at h
          simp only at h
          by_cases hD : t.StepResult = SQLITE_DONE
          · rw [if_pos hD] at h
            cases h
            exact ⟨_, rfl, filter_badAddressWarning parse _⟩
          · rw [if_neg hD] at h
            cases h
            refine ⟨badAddressWarning parse (steps.takeWhile isRow) ++
              ["failed to load ping cache"], by simp, ?_⟩
            rw [List.filter_append, filter_badAddressWarning]
            have : ["failed to load ping cache"].filter isInvalidAddressWarning = [] := by
              decide
            rw [this, List.append_nil]
  obtain ⟨logged, h1, h2⟩ := key
  refine ⟨logged, h1, h2, ?_, ?_, ?_⟩
  · rintro ⟨r, hr, hp⟩
    rw [h2]
    unfold badAddressWarning
    cases hf : firstBadAddress parse (rowsEncountered self steps) with
    | none => exact absurd hp (firstBadAddress_eq_none.1 hf r hr)
    | some ip => rfl
  · intro hall
    rw [h2]
    unfold badAddressWarning
    rw [firstBadAddress_eq_none.2 hall]
    rfl
  · intro ip hip
    rw [h2]
    unfold badAddressWarning
    rw [hip]

/-- C12 at a concrete load: two rows with unparsable addresses around a good row, then
DONE; the one warning is for the first. -/
theorem anti_log_spam_witness :
    Load net_addr_from_str_two (CServerBrowserPingCache.ctor (some []) SQLITE_OK true true)
      [SqliteStep.mk SQLITE_ROW "bogus" 7, SqliteStep.mk SQLITE_ROW "1.2.3.4" 50,
        SqliteStep.mk SQLITE_ROW "worse" 9, SqliteStep.mk SQLITE_DONE "" 0] =
      some { CServerBrowserPingCache.ctor (some []) SQLITE_OK true true with
        m_pConsole := ["invalid address: bogus"]
        m_vNewEntries := [CEntry.mk addr_1_2_3_4 50] } ∧
    ∃ logged,
      ["invalid address: bogus"] =
        (CServerBrowserPingCache.ctor (some []) SQLITE_OK true true).m_pConsole ++ logged ∧
      (logged.filter isInvalidAddressWarning).length = 1 := by
  refine ⟨by decide, ?_⟩
  obtain ⟨logged, h1, _, h3, _⟩ := anti_log_spam net_addr_from_str_two
    (CServerBrowserPingCache.ctor (some []) SQLITE_OK true true)
    { CServerBrowserPingCache.ctor (some []) SQLITE_OK true true with
      m_pConsole := ["invalid address: bogus"]
      m_vNewEntries := [CEntry.mk addr_1_2_3_4 50] }
    [SqliteStep.mk SQLITE_ROW "bogus" 7, SqliteStep.mk SQLITE_ROW "1.2.3.4" 50,
      SqliteStep.mk SQLITE_ROW "worse" 9, SqliteStep.mk SQLITE_DONE "" 0] (by decide)
  exact ⟨logged, h1, h3 ⟨SqliteStep.mk SQLITE_ROW "bogus" 7, by decide, by decide⟩⟩


/-! ## Where entries come from -/

theorem mem_parsedRows {parse : String → Option NETADDR} {rows : List SqliteStep} {e : CEntry}
    (h : e ∈ parsedRows parse rows) : ∃ r ∈ rows, parse r.pIpAddress = some e.m_Addr := by
  induction rows with
  | nil => simp [parsedRows] at h
  | cons r rows ih =>
    cases hp : parse r.pIpAddress with
    | none =>
      simp only [parsedRows, hp] at h
      obtain ⟨r1, h1, h2⟩ := ih h
      exact ⟨r1, List.mem_cons_of_mem _ h1, h2⟩
    | some Addr =>
      simp only [parsedRows, hp, List.mem_cons] at h
      rcases h with rfl | h
      · exact ⟨r, List.mem_cons_self _ _, hp⟩
      · obtain ⟨r1, h1, h2⟩ := ih h
        exact ⟨r1, List.mem_cons_of_mem _ h1, h2⟩

/-- Every pending entry after a `Load` was pending before or was parsed from one of
the rows. -/
theorem Load_mem {parse : String → Option NETADDR} {self self1 : CServerBrowserPingCache}
    {steps : List SqliteStep} (h : Load parse self steps = some self1) {e : CEntry}
    (he : e ∈ self1.m_vNewEntries) :
    e ∈ self.m_vNewEntries ∨ ∃ r ∈ steps, parse r.pIpAddress = some e.m_Addr := by
  cases hd : self.m_pDisk with
  | none =>
    rw [Load_none parse self steps hd] at h
    cases h
    exact Or.inl he
  | some disk =>
    cases hl : self.m_pLoadStmt with
    | false =>
      rw [Load_no_statement parse self steps disk hd hl] at h
      cases h
      exact Or.inl he
    | true =>
      rw [Load_eq parse self disk steps hd hl] at h
      cases hdw : steps.dropWhile isRow with
      | nil => rw [hdw] at h; simp at h
      | cons t rest =>
        rw [hdw] at h
        simp only at h
        by_cases hD : t.StepResult = SQLITE_DONE
        · rw [if_pos hD] at h
          cases h
          simp only [List.mem_append] at he
          rcases he with he | he
          · exact Or.inl he
          · obtain ⟨r, h1, h2⟩ := mem_parsedRows he
            exact Or.inr ⟨r, (List.takeWhile_sublist _).subset h1, h2⟩
        · rw [if_neg hD] at h
          cases h
          exact Or.inl he

/-- Every entry of a flattened sequence was in the canonical sequence or in the
pending buffer. -/
theorem mem_Flatten_imp {cmp : NETADDR → NETADDR → Int} {E P : List CEntry} {e : CEntry}
    (h : e ∈ Flatten cmp E P) : e ∈ E ∨ e ∈ P := by
  rw [Flatten_eq] at h
  rcases mem_mergeLists h with h | h
  · exact Or.inl h
  · exact Or.inr ((stable_sort_perm _ P).subset ((lastOfRuns_sublist cmp _).subset h))

/-- What `run` reaches is reachable. -/
theorem run_reachable {cmp : NETADDR → NETADDR → Int} {parse : String → Option NETADDR}
    {fmt : NETADDR → String} {init : CServerBrowserPingCache} (calls : List Call) :
    ∀ {self self1 : CServerBrowserPingCache}, Reachable cmp parse fmt init self →
      run cmp parse fmt self calls = some self1 → Reachable cmp parse fmt init self1 := by
  induction calls with
  | nil =>
    intro self self1 hr h
    simp only [run, Option.some.injEq] at h
    subst h
    exact hr
  | cons c cs ih =>
    intro self self1 hr h
    cases c with
    | Load steps =>
      simp only [run] at h
      cases hl : Load parse self steps with
      | none => rw [hl] at h; simp at h
      | some s2 =>
        rw [hl] at h
        exact ih (Reachable.Load steps hr hl) h
    | CachePing Addr Ping sql =>
      simp only [run] at h
      exact ih (Reachable.CachePing Addr Ping sql hr) h
    | GetPingCache =>
      simp only [run] at h
      exact ih (Reachable.GetPingCache hr) h

/-- As long as the rows given to `Load` parse to addresses with port zero, every
entry the object holds has port zero. -/
theorem run_port_zero {cmp : NETADDR → NETADDR → Int} {parse : String → Option NETADDR}
    {fmt : NETADDR → String} (calls : List Call)
    (hports : ∀ steps, Call.Load steps ∈ calls →
      ∀ r ∈ steps, ∀ a, parse r.pIpAddress = some a → a.port = 0) :
    ∀ {self self1 : CServerBrowserPingCache},
      (∀ e ∈ self.m_vEntries ++ self.m_vNewEntries, e.m_Addr.port = 0) →
      run cmp parse fmt self calls = some self1 →
      ∀ e ∈ self1.m_vEntries ++ self1.m_vNewEntries, e.m_Addr.port = 0 := by
  induction calls with
  | nil =>
    intro self self1 h0 h
    simp only [run, Option.some.injEq] at h
    subst h
    exact h0
  | cons c cs ih =>
    intro self self1 h0 h
    have hports1 : ∀ steps, Call.Load steps ∈ cs →
        ∀ r ∈ steps, ∀ a, parse r.pIpAddress = some a → a.port = 0 :=
      fun steps hs => hports steps (List.mem_cons_of_mem _ hs)
    cases c with
    | Load steps =>
      simp only [run] at h
      cases hl : Load parse self steps with
      | none => rw [hl] at h; simp at h
      | some s2 =>
        rw [hl] at h
        refine ih hports1 ?_ h
        intro e he
        rcases List.mem_append.1 he with he | he
        · rw [(Load_unchanged hl).1] at he
          exact h0 e (List.mem_append_left _ he)
        · rcases Load_mem hl he with h1 | ⟨r, h1, h2⟩
          · exact h0 e (List.mem_append_right _ h1)
          · exact hports steps (List.mem_cons_self _ _) r h1 _ h2
    | CachePing Addr Ping sql =>
      simp only [run] at h
      refine ih hports1 ?_ h
      intro e he
      rw [CachePing_m_vEntries, CachePing_m_vNewEntries, ← List.append_assoc] at he
      rcases List.mem_append.1 he with he | he
      · exact h0 e he
      · rw [List.mem_singleton.1 he]
    | GetPingCache =>
      simp only [run] at h
      refine ih hports1 ?_ h
      intro e he
      rw [GetPingCache_fst] at he
      simp only [List.append_nil] at he
      exact h0 e (List.mem_append.2 (mem_Flatten_imp he))


/-- C13 fails as stated for entries that come from `Load`, which does not set the port
to zero.  A persisted row whose text carries a port is loaded with that port; after a
`CachePing` of the same host and a `GetPingCache`, the canonical sequence holds an
entry with port 7000, and two entries whose addresses are equal once their ports are
set to zero. -/
theorem per_host_keying_counterexample :
    (run net_addr_comp_lex net_addr_from_str_port net_addr_str_dots
        (CServerBrowserPingCache.ctor (some []) SQLITE_OK true true)
        [Call.Load [SqliteStep.mk SQLITE_ROW "1.2.3.4:7000" 50, SqliteStep.mk SQLITE_DONE "" 0],
          Call.CachePing addr_1_2_3_4 30 sqlOk, Call.GetPingCache]).map
        CServerBrowserPingCache.m_vEntries =
      some [CEntry.mk ⟨1, [1, 2, 3, 4], 0⟩ 30, CEntry.mk ⟨1, [1, 2, 3, 4], 7000⟩ 50] ∧
    ¬ (∀ e ∈ [CEntry.mk ⟨1, [1, 2, 3, 4], 0⟩ 30, CEntry.mk ⟨1, [1, 2, 3, 4], 7000⟩ 50],
      e.m_Addr.port = 0) ∧
    ¬ ([CEntry.mk ⟨1, [1, 2, 3, 4], 0⟩ 30, CEntry.mk ⟨1, [1, 2, 3, 4], 7000⟩ 50].Pairwise
      (fun x y => ({ x.m_Addr with port := 0 } : NETADDR) ≠ { y.m_Addr with port := 0 })) := by
  decide

/-- C13, amended.  In every state reached from the freshly constructed cache by a
sequence of `Load`, `CachePing` and `GetPingCache` calls in which every row given to
`Load` parses, if it parses, to an address with port zero, every entry of the
canonical sequence has port zero, and therefore no two of its entries have addresses
that are equal once their ports are set to zero; the same holds for the sequence a
`GetPingCache` call returns from that state. -/
theorem per_host_keying (cmp : NETADDR → NETADDR → Int) (parse : String → Option NETADDR)
    (fmt : NETADDR → String) (hc : TotalOrder cmp)
    (SqliteOpen : Option Table) (ExecResult : Int) (LoadStmt StoreStmt : Bool)
    (calls : List Call)
    (hports : ∀ steps, Call.Load steps ∈ calls →
      ∀ r ∈ steps, ∀ a, parse r.pIpAddress = some a → a.port = 0)
    (self : CServerBrowserPingCache)
    (hrun : run cmp parse fmt
      (CServerBrowserPingCache.ctor SqliteOpen ExecResult LoadStmt StoreStmt) calls =
        some self) :
    (∀ e ∈ self.m_vEntries, e.m_Addr.port = 0) ∧
    self.m_vEntries.Pairwise
      (fun x y => ({ x.m_Addr with port := 0 } : NETADDR) ≠ { y.m_Addr with port := 0 }) ∧
    (∀ e ∈ (GetPingCache cmp self).2.1, e.m_Addr.port = 0) ∧
    (GetPingCache cmp self).2.1.Pairwise
      (fun x y => ({ x.m_Addr with port := 0 } : NETADDR) ≠ { y.m_Addr with port := 0 }) := by
  obtain ⟨h01, h02⟩ := ctor_m_vEntries SqliteOpen ExecResult LoadStmt StoreStmt
  have hpz : ∀ e ∈ self.m_vEntries ++ self.m_vNewEntries, e.m_Addr.port = 0 :=
    run_port_zero calls hports (by rw [h01, h02]; simp) hrun
  have hs : StrictAsc cmp self.m_vEntries :=
    (run_reachable calls Reachable.init hrun).strictAsc hc
      (by rw [h01]; exact List.Pairwise.nil)
  have hnorm : ∀ x : CEntry, x.m_Addr.port = 0 →
      ({ x.m_Addr with port := 0 } : NETADDR) = x.m_Addr := by
    intro x hx
    cases hxa : x.m_Addr
    rw [hxa] at hx
    simp only at hx
    simp [hx]
  have hpair : ∀ l : List CEntry, StrictAsc cmp l → (∀ e ∈ l, e.m_Addr.port = 0) →
      l.Pairwise
        (fun x y => ({ x.m_Addr with port := 0 } : NETADDR) ≠ { y.m_Addr with port := 0 }) := by
    intro l hl hp
    unfold StrictAsc at hl
    refine (List.Pairwise.and_mem.1 hl).imp ?_
    rintro x y ⟨hx, hy, hxy⟩
    rw [hnorm x (hp x hx), hnorm y (hp y hy)]
    exact hc.ne_of_lt hxy
  have hE : ∀ e ∈ self.m_vEntries, e.m_Addr.port = 0 :=
    fun e he => hpz e (List.mem_append_left _ he)
  have hF : ∀ e ∈ (GetPingCache cmp self).2.1, e.m_Addr.port = 0 := by
    intro e he
    rw [GetPingCache_snd] at he
    exact hpz e (List.mem_append.2 (mem_Flatten_imp he))
  refine ⟨hE, hpair _ hs hE, hF, hpair _ ?_ hF⟩
  rw [GetPingCache_snd]
  exact strictAsc_Flatten hc hs _

/-- C13, amended, at a concrete run: a row without a port is loaded, the same host is
pinged on port 7000, and the cache is flattened. -/
theorem per_host_keying_witness :
    TotalOrder net_addr_comp_lex ∧
    (∀ steps, Call.Load steps ∈
        [Call.Load [SqliteStep.mk SQLITE_ROW "1.2.3.4" 50, SqliteStep.mk SQLITE_DONE "" 0],
          Call.CachePing { addr_5_6_7_8 with port := 7000 } 30 sqlOk, Call.GetPingCache] →
      ∀ r ∈ steps, ∀ a, net_addr_from_str_two r.pIpAddress = some a → a.port = 0) ∧
    run net_addr_comp_lex net_addr_from_str_two net_addr_str_dots
      (CServerBrowserPingCache.ctor (some []) SQLITE_OK true true)
      [Call.Load [SqliteStep.mk SQLITE_ROW "1.2.3.4" 50, SqliteStep.mk SQLITE_DONE "" 0],
        Call.CachePing { addr_5_6_7_8 with port := 7000 } 30 sqlOk, Call.GetPingCache] =
      some { CServerBrowserPingCache.ctor (some []) SQLITE_OK true true with
        m_pDisk := some [("5.6.7.8", 30)]
        m_vEntries := [CEntry.mk addr_1_2_3_4 50, CEntry.mk addr_5_6_7_8 30] } ∧
    ∀ e ∈ [CEntry.mk addr_1_2_3_4 50, CEntry.mk addr_5_6_7_8 30], e.m_Addr.port = 0 := by
  have hp : ∀ steps, Call.Load steps ∈
        [Call.Load [SqliteStep.mk SQLITE_ROW "1.2.3.4" 50, SqliteStep.mk SQLITE_DONE "" 0],
          Call.CachePing { addr_5_6_7_8 with port := 7000 } 30 sqlOk, Call.GetPingCache] →
      ∀ r ∈ steps, ∀ a, net_addr_from_str_two r.pIpAddress = some a → a.port = 0 := by
    intro steps hs r _ a ha
    unfold net_addr_from_str_two at ha
    split_ifs at ha <;> simp at ha <;> rw [← ha]
  exact ⟨net_addr_comp_lex_total, hp, by decide,
    (per_host_keying net_addr_comp_lex net_addr_from_str_two net_addr_str_dots
      net_addr_comp_lex_total (some []) SQLITE_OK true true _ hp
      { CServerBrowserPingCache.ctor (some []) SQLITE_OK true true with
        m_pDisk := some [("5.6.7.8", 30)]
        m_vEntries := [CEntry.mk addr_1_2_3_4 50, CEntry.mk addr_5_6_7_8 30] }
      (by decide)).1⟩


/-- C14: two-host scenario.  From the empty cache, for any two addresses `a` and `b`
whose port-zeroed forms (which are `a` and `b` themselves when they carry no port)
satisfy `a < b` under the comparator, `CachePing(a, 50)`, `CachePing(b, 30)`,
`GetPingCache` returns count 2 and the sequence `[{a, 50}, {b, 30}]` of the port-zeroed
addresses, the same results when the two `CachePing` calls are made in the opposite
order, and literally `[{a, 50}, {b, 30}]` when `a` and `b` carry no port. -/
theorem two_host_scenario (cmp : NETADDR → NETADDR → Int) (fmt : NETADDR → String)
    (hc : TotalOrder cmp)
    (SqliteOpen : Option Table) (ExecResult : Int) (LoadStmt StoreStmt : Bool)
    (a b : NETADDR) (sql1 sql2 : StoreResults)
    (hab : cmp { a with port := 0 } { b with port := 0 } < 0) :
    (GetPingCache cmp
      (CachePing fmt
        (CachePing fmt (CServerBrowserPingCache.ctor SqliteOpen ExecResult LoadStmt StoreStmt)
          a 50 sql1)
        b 30 sql2)).2 =
      ([CEntry.mk { a with port := 0 } 50, CEntry.mk { b with port := 0 } 30], 2) ∧
    (GetPingCache cmp
      (CachePing fmt
        (CachePing fmt (CServerBrowserPingCache.ctor SqliteOpen ExecResult LoadStmt StoreStmt)
          b 30 sql1)
        a 50 sql2)).2 =
      ([CEntry.mk { a with port := 0 } 50, CEntry.mk { b with port := 0 } 30], 2) ∧
    (a.port = 0 → b.port = 0 →
      (GetPingCache cmp
        (CachePing fmt
          (CachePing fmt (CServerBrowserPingCache.ctor SqliteOpen ExecResult LoadStmt StoreStmt)
            a 50 sql1)
          b 30 sql2)).2 = ([CEntry.mk a 50, CEntry.mk b 30], 2)) := by
  obtain ⟨h01, h02⟩ := ctor_m_vEntries SqliteOpen ExecResult LoadStmt StoreStmt
  have hba : ¬ cmp { b with port := 0 } { a with port := 0 } < 0 := hc.not_lt_of_lt hab
  have hne : cmp { a with port := 0 } { b with port := 0 } ≠ 0 := by omega
  have h1 : Flatten cmp []
      [CEntry.mk { a with port := 0 } 50, CEntry.mk { b with port := 0 } 30] =
      [CEntry.mk { a with port := 0 } 50, CEntry.mk { b with port := 0 } 30] := by
    rw [Flatten_eq]
    have e1 : stable_sort (CAddrComparer cmp)
        [CEntry.mk { a with port := 0 } 50, CEntry.mk { b with port := 0 } 30] =
        [CEntry.mk { a with port := 0 } 50, CEntry.mk { b with port := 0 } 30] := by
      simp [stable_sort, List.insertionSort, List.orderedInsert, CAddrComparer, hba]
    rw [e1]
    simp [lastOfRuns, hne, mergeLists]
  have h2 : Flatten cmp []
      [CEntry.mk { b with port := 0 } 30, CEntry.mk { a with port := 0 } 50] =
      [CEntry.mk { a with port := 0 } 50, CEntry.mk { b with port := 0 } 30] := by
    rw [Flatten_eq]
    have e1 : stable_sort (CAddrComparer cmp)
        [CEntry.mk { b with port := 0 } 30, CEntry.mk { a with port := 0 } 50] =
        [CEntry.mk { a with port := 0 } 50, CEntry.mk { b with port := 0 } 30] := by
      simp [stable_sort, List.insertionSort, List.orderedInsert, CAddrComparer, hab]
    rw [e1]
    simp [lastOfRuns, hne, mergeLists]
  have h3 : (GetPingCache cmp
      (CachePing fmt
        (CachePing fmt (CServerBrowserPingCache.ctor SqliteOpen ExecResult LoadStmt StoreStmt)
          a 50 sql1)
        b 30 sql2)).2 =
      ([CEntry.mk { a with port := 0 } 50, CEntry.mk { b with port := 0 } 30], 2) := by
    rw [GetPingCache_snd]
    simp only [CachePing_m_vEntries, CachePing_m_vNewEntries, h01, h02, List.nil_append,
      List.singleton_append]
    rw [h1]
    rfl
  refine ⟨h3, ?_, ?_⟩
  · rw [GetPingCache_snd]
    simp only [CachePing_m_vEntries, CachePing_m_vNewEntries, h01, h02, List.nil_append,
      List.singleton_append]
    rw [h2]
    rfl
  · intro ha hb
    rw [h3]
    cases a
    cases b
    simp only at ha hb
    subst ha hb
    rfl

/-- C14 at the addresses 1.2.3.4 and 5.6.7.8. -/
theorem two_host_scenario_witness :
    TotalOrder net_addr_comp_lex ∧
    net_addr_comp_lex { addr_1_2_3_4 with port := 0 } { addr_5_6_7_8 with port := 0 } < 0 ∧
    (GetPingCache net_addr_comp_lex
      (CachePing net_addr_str_dots
        (CachePing net_addr_str_dots noDisk addr_1_2_3_4 50 sqlOk)
        addr_5_6_7_8 30 sqlOk)).2 =
      ([CEntry.mk addr_1_2_3_4 50, CEntry.mk addr_5_6_7_8 30], 2) ∧
    (GetPingCache net_addr_comp_lex
      (CachePing net_addr_str_dots
        (CachePing net_addr_str_dots noDisk addr_5_6_7_8 30 sqlOk)
        addr_1_2_3_4 50 sqlOk)).2 =
      ([CEntry.mk addr_1_2_3_4 50, CEntry.mk addr_5_6_7_8 30], 2) :=
  ⟨net_addr_comp_lex_total, by decide,
    (two_host_scenario net_addr_comp_lex net_addr_str_dots net_addr_comp_lex_total
      none SQLITE_OK false false addr_1_2_3_4 addr_5_6_7_8 sqlOk sqlOk (by decide)).1,
    (two_host_scenario net_addr_comp_lex net_addr_str_dots net_addr_comp_lex_total
      none SQLITE_OK false false addr_1_2_3_4 addr_5_6_7_8 sqlOk sqlOk (by decide)).2.1⟩


/-! ## The table -/

theorem insertOrReplace_filter_key (t : Table) (k : String) (v : Int) :
    (insertOrReplace t k v).filter (fun r => r.1 == k) = [(k, v)] := by
  unfold insertOrReplace
  rw [List.filter_append, List.filter_filter]
  have : t.filter (fun r => (r.1 == k) && (r.1 != k)) = [] := by
    rw [List.filter_eq_nil_iff]
    intro r _
    by_cases h : r.1 = k <;> simp [h]
  rw [this]
  simp

theorem insertOrReplace_filter_other (t : Table) (k : String) (v : Int) :
    (insertOrReplace t k v).filter (fun r => r.1 != k) = t.filter (fun r => r.1 != k) := by
  unfold insertOrReplace
  rw [List.filter_append, List.filter_filter]
  simp

theorem tableLookup_insertOrReplace_self (t : Table) (k : String) (v : Int) :
    tableLookup (insertOrReplace t k v) k = some v := by
  unfold tableLookup insertOrReplace
  rw [List.find?_append]
  have : (t.filter (fun r => r.1 != k)).find? (fun r => r.1 == k) = none := by
    rw [List.find?_eq_none]
    intro r hr
    have := (List.mem_filter.1 hr).2
    simpa using this
  rw [this]
  simp

theorem tableLookup_insertOrReplace_other (t : Table) (k k1 : String) (v : Int)
    (h : k1 ≠ k) : tableLookup (insertOrReplace t k v) k1 = tableLookup t k1 := by
  unfold tableLookup insertOrReplace
  rw [List.find?_append]
  have h1 : (t.filter (fun r => r.1 != k)).find? (fun r => r.1 == k1) =
      t.find? (fun r => r.1 == k1) := by
    induction t with
    | nil => rfl
    | cons r rs ih =>
      by_cases e : r.1 = k
      · have e1 : (r.1 == k1) = false := by
          rw [beq_eq_false_iff_ne]
          exact fun e2 => h (e2.symm.trans e)
        have e3 : (r.1 != k) = false := by simp [e]
        simp only [List.filter_cons, List.find?_cons, e1, e3, Bool.false_eq_true, if_false, ih]
      · have e3 : (r.1 != k) = true := by simp [e]
        cases e1 : (r.1 == k1)
        · simp only [List.filter_cons, List.find?_cons, e1, e3, if_true, ih]
        · simp only [List.filter_cons, List.find?_cons, e1, e3, if_true]
  rw [h1]
  have h2 : [(k, v)].find? (fun r => r.1 == k1) = none := by
    simp [List.find?_cons, Ne.symm h]
  rw [h2]
  simp

/-- C15: durable upsert.  With the table a map from address text to ping, whenever
the handle is open, the store statement is prepared and reset, the two binds and the
step succeed, `CachePing(addr, ping)` performs exactly one insert-or-replace, whose key
is the text of `addr` with port zero, formatted without a port, and whose value is
`ping`: afterwards the table maps that key to `ping`, it has exactly one row for the
key (an earlier row is replaced), the rows for other keys are unchanged, and nothing
is printed. -/
theorem durable_upsert (fmt : NETADDR → String) (self : CServerBrowserPingCache)
    (disk : Table) (Addr : NETADDR) (Ping : Int) (sql : StoreResults)
    (hd : self.m_pDisk = some disk) (hs : self.m_pStoreStmt = true)
    (hsql : sql.reset = SQLITE_OK ∧ sql.bind_text = SQLITE_OK ∧ sql.bind_int = SQLITE_OK ∧
      sql.step = SQLITE_DONE) :
    (CachePing fmt self Addr Ping sql).m_pDisk =
      some (insertOrReplace disk (fmt { Addr with port := 0 }) Ping) ∧
    (∃ disk1, (CachePing fmt self Addr Ping sql).m_pDisk = some disk1 ∧
      tableLookup disk1 (fmt { Addr with port := 0 }) = some Ping ∧
      disk1.filter (fun r => r.1 == fmt { Addr with port := 0 }) =
        [(fmt { Addr with port := 0 }, Ping)] ∧
      disk1.filter (fun r => r.1 != fmt { Addr with port := 0 }) =
        disk.filter (fun r => r.1 != fmt { Addr with port := 0 }) ∧
      ∀ key, key ≠ fmt { Addr with port := 0 } → tableLookup disk1 key = tableLookup disk key) ∧
    (CachePing fmt self Addr Ping sql).m_pConsole = self.m_pConsole := by
  have herr : storeError self sql = false := by
    obtain ⟨h1, h2, h3, h4⟩ := hsql
    simp [storeError, hs, h1, h2, h3, h4]
  have hc := CachePing_some fmt self Addr Ping sql disk hd
  rw [herr] at hc
  simp only [Bool.false_eq_true, if_false] at hc
  rw [hc]
  refine ⟨rfl, ⟨_, rfl, tableLookup_insertOrReplace_self _ _ _, insertOrReplace_filter_key _ _ _,
    insertOrReplace_filter_other _ _ _,
    fun key hk => tableLookup_insertOrReplace_other _ _ _ _ hk⟩, rfl⟩

/-- C15 at a concrete table: 1.2.3.4 is stored with 70 and 5.6.7.8 with 30; a ping of
50 for 1.2.3.4 on port 7000 replaces the first row. -/
theorem durable_upsert_witness :
    (CServerBrowserPingCache.ctor (some [("1.2.3.4", 70), ("5.6.7.8", 30)])
        SQLITE_OK true true).m_pDisk =
      some [("1.2.3.4", 70), ("5.6.7.8", 30)] ∧
    (CachePing net_addr_str_dots
      (CServerBrowserPingCache.ctor (some [("1.2.3.4", 70), ("5.6.7.8", 30)])
        SQLITE_OK true true)
      { addr_1_2_3_4 with port := 7000 } 50 sqlOk).m_pDisk =
      some [("5.6.7.8", 30), ("1.2.3.4", 50)] := by
  refine ⟨by decide, ?_⟩
  have h := (durable_upsert net_addr_str_dots
    (CServerBrowserPingCache.ctor (some [("1.2.3.4", 70), ("5.6.7.8", 30)]) SQLITE_OK true true)
    [("1.2.3.4", 70), ("5.6.7.8", 30)] { addr_1_2_3_4 with port := 7000 } 50 sqlOk
    (by decide) (by decide) (by decide)).1
  rw [h]
  decide


/-! ## The merge of the code and the reference merge -/

theorem mergeLists_cons_of_lt {cmp : NETADDR → NETADDR → Int} (hc : TotalOrder cmp)
    (os : List CEntry) (n : CEntry) (ns : List CEntry)
    (h : ∀ o ∈ os, cmp n.m_Addr o.m_Addr < 0) :
    mergeLists cmp os (n :: ns) = n :: mergeLists cmp os ns := by
  cases os with
  | nil => simp [mergeLists]
  | cons o os =>
    have h1 := h o (List.mem_cons_self _ _)
    have h2 : 0 < cmp o.m_Addr n.m_Addr := (hc.swap _ _).1 h1
    rw [mergeLists, if_pos (by omega), if_neg (by omega)]

theorem mergeLists_eq_referenceMerge {cmp : NETADDR → NETADDR → Int} (hc : TotalOrder cmp)
    {os ns : List CEntry} (ho : StrictAsc cmp os) :
    mergeLists cmp os ns = referenceMerge cmp os ns := by
  induction os, ns using referenceMerge.induct cmp with
  | case1 ns => simp [mergeLists, referenceMerge]
  | case2 o os => simp [mergeLists, referenceMerge]
  | case3 o os n ns h1 ih =>
    have hl : mergeLists cmp (o :: os) (n :: ns) = o :: mergeLists cmp os (n :: ns) := by
      rw [mergeLists, if_pos (by omega), if_pos h1]
    have hr : referenceMerge cmp (o :: os) (n :: ns) =
        o :: referenceMerge cmp os (n :: ns) := by
      rw [referenceMerge, if_pos h1]
    rw [hl, hr, ih (List.pairwise_cons.1 ho).2]
  | case4 o os n ns h1 h2 ih =>
    have hl : mergeLists cmp (o :: os) (n :: ns) = n :: mergeLists cmp (o :: os) ns := by
      rw [mergeLists, if_pos (by omega), if_neg h1]
    have hr : referenceMerge cmp (o :: os) (n :: ns) =
        n :: referenceMerge cmp (o :: os) ns := by
      rw [referenceMerge, if_neg h1, if_pos h2]
    rw [hl, hr, ih ho]
  | case5 o os n ns h1 h2 ih =>
    have h0 : cmp o.m_Addr n.m_Addr = 0 := by omega
    have e : o.m_Addr = n.m_Addr := (hc.eq_iff _ _).1 h0
    have ho' := List.pairwise_cons.1 ho
    have hl : mergeLists cmp (o :: os) (n :: ns) = mergeLists cmp os (n :: ns) := by
      rw [mergeLists, if_neg (by omega)]
    have hr : referenceMerge cmp (o :: os) (n :: ns) = n :: referenceMerge cmp os ns := by
      rw [referenceMerge, if_neg h1, if_neg h2]
    rw [hl, hr, mergeLists_cons_of_lt hc os n ns (fun x hx => e ▸ ho'.1 x hx), ih ho'.2]

/-- C16: merge refinement.  For every old sequence that is strictly ascending under
the comparator and every new sequence (strictly ascending or not), the merge loop of
`GetPingCache`, given at least as many iterations as the two sequences have entries,
and the two loops after it produce exactly the output of the reference two-pointer
merge of the specification; and so the flatten is the reference merge of the
canonical sequence with the collapsed, sorted pending buffer. -/
theorem merge_refinement (cmp : NETADDR → NETADDR → Int) (hc : TotalOrder cmp)
    (old new : List CEntry) (ho : StrictAsc cmp old) (fuel : Nat)
    (hfuel : old.length + new.length ≤ fuel) :
    (MergeLoop cmp old new fuel 0 0 []).2.2 ++
        old.drop (MergeLoop cmp old new fuel 0 0 []).1 ++
        new.drop (MergeLoop cmp old new fuel 0 0 []).2.1 =
      referenceMerge cmp old new ∧
    ∀ pending, Flatten cmp old pending =
      referenceMerge cmp old (lastOfRuns cmp (stable_sort (CAddrComparer cmp) pending)) := by
  constructor
  · have h := MergeLoop_spec cmp old new fuel 0 0 [] (by omega)
    simp only [List.drop_zero, List.nil_append] at h
    rw [h, mergeLists_eq_referenceMerge hc ho]
  · intro pending
    rw [Flatten_eq, mergeLists_eq_referenceMerge hc ho]

/-- C16 at concrete sequences: 5.6.7.8 is in both, 1.2.3.4 only in the old one. -/
theorem merge_refinement_witness :
    TotalOrder net_addr_comp_lex ∧
    StrictAsc net_addr_comp_lex [CEntry.mk addr_1_2_3_4 50, CEntry.mk addr_5_6_7_8 70] ∧
    referenceMerge net_addr_comp_lex [CEntry.mk addr_1_2_3_4 50, CEntry.mk addr_5_6_7_8 70]
        [CEntry.mk addr_5_6_7_8 20] =
      [CEntry.mk addr_1_2_3_4 50, CEntry.mk addr_5_6_7_8 20] := by
  refine ⟨net_addr_comp_lex_total, by decide, ?_⟩
  rw [← (merge_refinement net_addr_comp_lex net_addr_comp_lex_total
    [CEntry.mk addr_1_2_3_4 50, CEntry.mk addr_5_6_7_8 70] [CEntry.mk addr_5_6_7_8 20]
    (by decide) 3 (by decide)).1]
  decide

/-! ## The collapsed pending buffer -/

theorem length_resize (v : List CEntry) (n : Nat) : (resize v n).length = n := by
  simp only [resize, List.length_append, List.length_take, List.length_replicate]
  omega

theorem mem_map_addr_iff {l : List CEntry} {a : NETADDR} :
    a ∈ l.map CEntry.m_Addr ↔ lastFor l a ≠ none := by
  rw [Ne, lastFor_eq_none, List.mem_map]
  constructor
  · rintro ⟨e, he, rfl⟩ h
    exact h e he rfl
  · intro h
    by_contra h1
    exact h (fun e he e1 => h1 ⟨e, he, e1⟩)

/-- C17: run collapse.  For every pending buffer, after the stable sort the
duplicate-removal loop followed by `resize(To)` leaves the buffer equal to the list of
the last element of every maximal run of consecutive entries of the sorted buffer
that compare equal, in order; its length, which is `To`, is the number of distinct
addresses of the buffer; it is strictly ascending; and each element kept is the most
recently appended observation for its address in the original buffer. -/
theorem run_collapse (cmp : NETADDR → NETADDR → Int) (hc : TotalOrder cmp)
    (pending : List CEntry) :
    resize
        (RemoveDuplicates cmp (stable_sort (CAddrComparer cmp) pending).length
          (stable_sort (CAddrComparer cmp) pending) 0 0).1
        (RemoveDuplicates cmp (stable_sort (CAddrComparer cmp) pending).length
          (stable_sort (CAddrComparer cmp) pending) 0 0).2 =
      lastOfRuns cmp (stable_sort (CAddrComparer cmp) pending) ∧
    (RemoveDuplicates cmp (stable_sort (CAddrComparer cmp) pending).length
        (stable_sort (CAddrComparer cmp) pending) 0 0).2 =
      ((pending.map CEntry.m_Addr).dedup).length ∧
    (lastOfRuns cmp (stable_sort (CAddrComparer cmp) pending)).length =
      ((pending.map CEntry.m_Addr).dedup).length ∧
    StrictAsc cmp (lastOfRuns cmp (stable_sort (CAddrComparer cmp) pending)) ∧
    ∀ e ∈ lastOfRuns cmp (stable_sort (CAddrComparer cmp) pending),
      lastFor pending e.m_Addr = some e := by
  have h1 := resize_RemoveDuplicates cmp (stable_sort (CAddrComparer cmp) pending)
  have h2 : StrictAsc cmp (lastOfRuns cmp (stable_sort (CAddrComparer cmp) pending)) :=
    strictAsc_lastOfRuns hc (stable_sort_asc hc pending)
  have h3 : ∀ a, lastFor (lastOfRuns cmp (stable_sort (CAddrComparer cmp) pending)) a =
      lastFor pending a := fun a => by
    rw [lastFor_lastOfRuns hc, lastFor_stable_sort hc]
  have h4 : (lastOfRuns cmp (stable_sort (CAddrComparer cmp) pending)).length =
      ((pending.map CEntry.m_Addr).dedup).length := by
    have hnd : ((lastOfRuns cmp (stable_sort (CAddrComparer cmp) pending)).map
        CEntry.m_Addr).Nodup := by
      show List.Pairwise (fun a b => a ≠ b) _
      rw [List.pairwise_map]
      exact h2.imp (fun {x y} hxy => hc.ne_of_lt hxy)
    have hp : ((lastOfRuns cmp (stable_sort (CAddrComparer cmp) pending)).map
        CEntry.m_Addr).Perm ((pending.map CEntry.m_Addr).dedup) := by
      rw [List.perm_ext_iff_of_nodup hnd (List.nodup_dedup _)]
      intro a
      rw [List.mem_dedup, mem_map_addr_iff, mem_map_addr_iff, h3]
    rw [← hp.length_eq, List.length_map]
  refine ⟨h1, ?_, h4, h2, ?_⟩
  · rw [← h4, ← h1, length_resize]
  · intro e he
    rw [← h3]
    exact h2.lastFor_of_mem hc he

/-- C17 at a concrete buffer: 5.6.7.8 is observed with 70, then 1.2.3.4 with 50, then
5.6.7.8 with 20. -/
theorem run_collapse_witness :
    TotalOrder net_addr_comp_lex ∧
    resize
        (RemoveDuplicates net_addr_comp_lex 3
          (stable_sort (CAddrComparer net_addr_comp_lex)
            [CEntry.mk addr_5_6_7_8 70, CEntry.mk addr_1_2_3_4 50, CEntry.mk addr_5_6_7_8 20])
          0 0).1
        (RemoveDuplicates net_addr_comp_lex 3
          (stable_sort (CAddrComparer net_addr_comp_lex)
            [CEntry.mk addr_5_6_7_8 70, CEntry.mk addr_1_2_3_4 50, CEntry.mk addr_5_6_7_8 20])
          0 0).2 =
      [CEntry.mk addr_1_2_3_4 50, CEntry.mk addr_5_6_7_8 20] :=
  ⟨net_addr_comp_lex_total,
    (run_collapse net_addr_comp_lex net_addr_comp_lex_total
      [CEntry.mk addr_5_6_7_8 70, CEntry.mk addr_1_2_3_4 50, CEntry.mk addr_5_6_7_8 20]).1.trans
      (by decide)⟩


/-! ## Snapshots at different times -/

theorem Agree.after_CachePing {s1 s2 : CServerBrowserPingCache} (h : Agree s1 s2)
    (fmt : NETADDR → String) (Addr : NETADDR) (Ping : Int) (sql : StoreResults) :
    Agree (CachePing fmt s1 Addr Ping sql) (CachePing fmt s2 Addr Ping sql) := by
  obtain ⟨h1, h2, h3, h4, h5⟩ := h
  have hobs : ∀ a,
      lastFor ((CachePing fmt s1 Addr Ping sql).m_vEntries ++
        (CachePing fmt s1 Addr Ping sql).m_vNewEntries) a =
      lastFor ((CachePing fmt s2 Addr Ping sql).m_vEntries ++
        (CachePing fmt s2 Addr Ping sql).m_vNewEntries) a := by
    intro a
    simp only [CachePing_m_vEntries, CachePing_m_vNewEntries, ← List.append_assoc]
    exact lastFor_congr_append h5 _ a
  cases hd : s1.m_pDisk with
  | none =>
    have hd2 : s2.m_pDisk = none := by rw [← h2, hd]
    refine ⟨?_, ?_, ?_, ?_, hobs⟩ <;>
      rw [CachePing_none fmt s1 Addr Ping sql hd, CachePing_none fmt s2 Addr Ping sql hd2] <;>
      assumption
  | some disk =>
    have hd2 : s2.m_pDisk = some disk := by rw [← h2, hd]
    have he : storeError s1 sql = storeError s2 sql := by
      simp only [storeError, h4]
    refine ⟨?_, ?_, ?_, ?_, hobs⟩ <;>
      rw [CachePing_some fmt s1 Addr Ping sql disk hd,
        CachePing_some fmt s2 Addr Ping sql disk hd2, he] <;>
      cases storeError s2 sql <;> simp [h1, h3, h4, hd, hd2]

theorem Agree.after_GetPingCache {cmp : NETADDR → NETADDR → Int} (hc : TotalOrder cmp)
    {s1 s2 : CServerBrowserPingCache} (h : Agree s1 s2)
    (hs1 : StrictAsc cmp s1.m_vEntries) (hs2 : StrictAsc cmp s2.m_vEntries) :
    Agree (GetPingCache cmp s1).1 (GetPingCache cmp s2).1 := by
  obtain ⟨h1, h2, h3, h4, h5⟩ := h
  rw [GetPingCache_fst, GetPingCache_fst]
  refine ⟨h1, h2, h3, h4, ?_⟩
  intro a
  simp only [List.append_nil]
  rw [lastFor_Flatten hc hs1, lastFor_Flatten hc hs2, h5]

theorem Agree.after_Load {s1 s2 : CServerBrowserPingCache} (h : Agree s1 s2)
    (parse : String → Option NETADDR) (steps : List SqliteStep) :
    (Load parse s1 steps = none ∧ Load parse s2 steps = none) ∨
      ∃ t1 t2, Load parse s1 steps = some t1 ∧ Load parse s2 steps = some t2 ∧
        Agree t1 t2 := by
  obtain ⟨h1, h2, h3, h4, h5⟩ := h
  cases hd : s1.m_pDisk with
  | none =>
    have hd2 : s2.m_pDisk = none := by rw [← h2, hd]
    exact Or.inr ⟨s1, s2, Load_none parse s1 steps hd, Load_none parse s2 steps hd2,
      h1, h2, h3, h4, h5⟩
  | some disk =>
    have hd2 : s2.m_pDisk = some disk := by rw [← h2, hd]
    cases hl : s1.m_pLoadStmt with
    | false =>
      have hl2 : s2.m_pLoadStmt = false := by rw [← h3, hl]
      exact Or.inr ⟨_, _, Load_no_statement parse s1 steps disk hd hl,
        Load_no_statement parse s2 steps disk hd2 hl2, by simp [h1], h2, h3, h4, h5⟩
    | true =>
      have hl2 : s2.m_pLoadStmt = true := by rw [← h3, hl]
      rw [Load_eq parse s1 disk steps hd hl, Load_eq parse s2 disk steps hd2 hl2]
      cases hdw : steps.dropWhile isRow with
      | nil => exact Or.inl ⟨rfl, rfl⟩
      | cons t rest =>
        simp only
        by_cases hD : t.StepResult = SQLITE_DONE
        · rw [if_pos hD, if_pos hD]
          refine Or.inr ⟨_, _, rfl, rfl, by simp [h1], h2, h3, h4, ?_⟩
          intro a
          simp only [← List.append_assoc]
          exact lastFor_congr_append h5 _ a
        · rw [if_neg hD, if_neg hD]
          exact Or.inr ⟨_, _, rfl, rfl, by simp [h1], h2, h3, h4, h5⟩

theorem Agree.snapshot {cmp : NETADDR → NETADDR → Int} (hc : TotalOrder cmp)
    {s1 s2 : CServerBrowserPingCache} (h : Agree s1 s2)
    (hs1 : StrictAsc cmp s1.m_vEntries) (hs2 : StrictAsc cmp s2.m_vEntries) :
    (GetPingCache cmp s1).2 = (GetPingCache cmp s2).2 := by
  have : Flatten cmp s1.m_vEntries s1.m_vNewEntries =
      Flatten cmp s2.m_vEntries s2.m_vNewEntries := by
    apply StrictAsc.ext hc (strictAsc_Flatten hc hs1 _) (strictAsc_Flatten hc hs2 _)
    intro a
    rw [lastFor_Flatten hc hs1, lastFor_Flatten hc hs2, h.2.2.2.2 a]
  rw [GetPingCache_snd, GetPingCache_snd, this]

/-- Objects that agree stay in agreement under the same calls, and the calls complete
on one exactly when they complete on the other. -/
theorem run_agree {cmp : NETADDR → NETADDR → Int} (hc : TotalOrder cmp)
    (parse : String → Option NETADDR) (fmt : NETADDR → String) (calls : List Call) :
    ∀ s1 s2 : CServerBrowserPingCache, Agree s1 s2 →
      StrictAsc cmp s1.m_vEntries → StrictAsc cmp s2.m_vEntries →
      (run cmp parse fmt s1 calls).map (fun s => (GetPingCache cmp s).2) =
        (run cmp parse fmt s2 calls).map (fun s => (GetPingCache cmp s).2) := by
  induction calls with
  | nil =>
    intro s1 s2 h hs1 hs2
    simp only [run, Option.map_some']
    rw [h.snapshot hc hs1 hs2]
  | cons c cs ih =>
    intro s1 s2 h hs1 hs2
    cases c with
    | Load steps =>
      simp only [run]
      rcases h.after_Load parse steps with ⟨e1, e2⟩ | ⟨t1, t2, e1, e2, h'⟩
      · rw [e1, e2]
      · rw [e1, e2]
        simp only
        exact ih t1 t2 h' (by rw [(Load_unchanged e1).1]; exact hs1)
          (by rw [(Load_unchanged e2).1]; exact hs2)
    | CachePing Addr Ping sql =>
      simp only [run]
      exact ih _ _ (h.after_CachePing fmt Addr Ping sql)
        (by rw [CachePing_m_vEntries]; exact hs1) (by rw [CachePing_m_vEntries]; exact hs2)
    | GetPingCache =>
      simp only [run]
      exact ih _ _ (h.after_GetPingCache hc hs1 hs2)
        (by rw [GetPingCache_fst]; exact strictAsc_Flatten hc hs1 _)
        (by rw [GetPingCache_fst]; exact strictAsc_Flatten hc hs2 _)

theorem run_append (cmp : NETADDR → NETADDR → Int) (parse : String → Option NETADDR)
    (fmt : NETADDR → String) (calls1 calls2 : List Call) :
    ∀ self : CServerBrowserPingCache,
      run cmp parse fmt self (calls1 ++ calls2) =
        (run cmp parse fmt self calls1).bind (fun s => run cmp parse fmt s calls2) := by
  induction calls1 with
  | nil => intro self; rfl
  | cons c cs ih =>
    intro self
    cases c with
    | Load steps =>
      simp only [List.cons_append, run]
      cases Load parse self steps with
      | none => rfl
      | some s1 => exact ih s1
    | CachePing Addr Ping sql =>
      simp only [List.cons_append, run]
      exact ih _
    | GetPingCache =>
      simp only [List.cons_append, run]
      exact ih _

/-- C18: snapshot timing does not matter.  For every strictly ascending canonical
sequence `E` and all pending buffers `P1` and `P2`, flattening `P1` and then `P2` gives
what flattening `P1 ++ P2` at once gives; and so, from every state whose canonical
sequence is strictly ascending, a sequence of calls with an extra `GetPingCache`
inserted anywhere completes exactly when the sequence without it does, and a
`GetPingCache` after it returns the same sequence and count. -/
theorem snapshot_timing (cmp : NETADDR → NETADDR → Int) (hc : TotalOrder cmp)
    (E : List CEntry) (hE : StrictAsc cmp E) :
    (∀ P1 P2, Flatten cmp (Flatten cmp E P1) P2 = Flatten cmp E (P1 ++ P2)) ∧
    ∀ (parse : String → Option NETADDR) (fmt : NETADDR → String)
      (self : CServerBrowserPingCache) (calls1 calls2 : List Call),
      self.m_vEntries = E →
      (run cmp parse fmt self (calls1 ++ Call.GetPingCache :: calls2)).map
          (fun s => (GetPingCache cmp s).2) =
        (run cmp parse fmt self (calls1 ++ calls2)).map
          (fun s => (GetPingCache cmp s).2) := by
  constructor
  · intro P1 P2
    have h1 := strictAsc_Flatten hc hE P1
    apply StrictAsc.ext hc (strictAsc_Flatten hc h1 P2) (strictAsc_Flatten hc hE _)
    intro a
    rw [lastFor_Flatten hc h1, lastFor_Flatten hc hE, ← List.append_assoc]
    exact lastFor_congr_append (fun a => lastFor_Flatten hc hE P1 a) P2 a
  · intro parse fmt self calls1 calls2 hself
    subst hself
    rw [run_append, run_append]
    cases h1 : run cmp parse fmt self calls1 with
    | none => rfl
    | some s =>
      simp only [Option.some_bind, run]
      have hs : StrictAsc cmp s.m_vEntries :=
        (run_reachable calls1 Reachable.init h1).strictAsc hc hE
      have hs' : StrictAsc cmp (GetPingCache cmp s).1.m_vEntries := by
        rw [GetPingCache_fst]; exact strictAsc_Flatten hc hs _
      refine run_agree hc parse fmt calls2 _ _ ?_ hs' hs
      rw [GetPingCache_fst]
      refine ⟨rfl, rfl, rfl, rfl, ?_⟩
      intro a
      simp only [List.append_nil]
      exact lastFor_Flatten hc hs _ a

/-- C18 at a concrete flatten: 5.6.7.8 is pending with 70 at the first snapshot and
with 20 at the second. -/
theorem snapshot_timing_witness :
    TotalOrder net_addr_comp_lex ∧
    StrictAsc net_addr_comp_lex [CEntry.mk addr_1_2_3_4 50] ∧
    Flatten net_addr_comp_lex
        (Flatten net_addr_comp_lex [CEntry.mk addr_1_2_3_4 50] [CEntry.mk addr_5_6_7_8 70])
        [CEntry.mk addr_5_6_7_8 20] =
      Flatten net_addr_comp_lex [CEntry.mk addr_1_2_3_4 50]
        ([CEntry.mk addr_5_6_7_8 70] ++ [CEntry.mk addr_5_6_7_8 20]) :=
  ⟨net_addr_comp_lex_total, by decide,
    (snapshot_timing net_addr_comp_lex net_addr_comp_lex_total [CEntry.mk addr_1_2_3_4 50]
      (by decide)).1 _ _⟩

end PingCache
